import Mathlib

/-!
Verification of the TdsBitTorrentDownloader peer engine against its
natural-language specification.

The Rust sources are shallowly embedded: byte strings become `List Nat`
(each element a byte value), machine integers become `Nat`/`Int` with
explicit bounds where they matter, `f64` token arithmetic becomes `ℚ`,
fallible functions return `Except`/`Option`, and the concurrent
download loop becomes an explicit transition relation.
-/

/-! # Bencode codec (src/tds_core/src/bencoding/decoder.rs)

`Bencode` mirrors the Rust enum: `Int(i64)`, `Bytes(Vec<u8>)`,
`List(Vec<Bencode>)`, `Dict(BTreeMap<Vec<u8>, Bencode>)`.  A `BTreeMap`
is represented by its entry list in strictly increasing key order (the
order in which `BTreeMap` iteration yields entries); decoding inserts
entries with an order-preserving `insertSorted`, matching
`BTreeMap::insert` (which replaces the value on an equal key).
-/

inductive Bencode where
  | int (i : Int)
  | bytes (b : List Nat)
  | list (items : List Bencode)
  | dict (entries : List (List Nat × Bencode))

/-- Lexicographic byte order, the `Ord` instance of `Vec<u8>`:
a strict prefix is smaller, otherwise the first differing byte decides. -/
def lexLt : List Nat → List Nat → Bool
  | [], [] => false
  | [], _ :: _ => true
  | _ :: _, [] => false
  | x :: xs, y :: ys => x < y || (x == y && lexLt xs ys)

/-- `BTreeMap::insert` on the sorted entry list: place the new entry at
its ordered position, replacing an entry with an equal key. -/
def insertSorted (k : List Nat) (v : Bencode) :
    List (List Nat × Bencode) → List (List Nat × Bencode)
  | [] => [(k, v)]
  | (k0, v0) :: rest =>
    if lexLt k k0 then (k, v) :: (k0, v0) :: rest
    else if k = k0 then (k, v) :: rest
    else (k0, v0) :: insertSorted k v rest

/-- Big-endian decimal digits (ASCII) of `n`; the fuel argument only
bounds the recursion depth and is never exhausted when `n ≤ fuel`. -/
def natToDecAux : Nat → Nat → List Nat
  | 0, _ => []
  | fuel + 1, n => if n = 0 then [] else natToDecAux fuel (n / 10) ++ [n % 10 + 48]

/-- ASCII decimal rendering of a natural number, as `to_string` emits it. -/
def natToDec (n : Nat) : List Nat :=
  if n = 0 then [48] else natToDecAux n n

/-- ASCII decimal rendering of an `i64`, as `to_string` emits it
(a `-` sign followed by the digits of the magnitude when negative). -/
def intToBytes (i : Int) : List Nat :=
  if i < 0 then 45 :: natToDec (-i).toNat else natToDec i.toNat

/-- ASCII digit test. -/
def isDigitByte (c : Nat) : Bool := 48 ≤ c && c ≤ 57

/-- Horner accumulation of ASCII digits; any non-digit byte fails,
matching `str::parse` on the scanned slice. -/
def parseNatAcc (acc : Nat) : List Nat → Option Nat
  | [] => some acc
  | c :: cs => if isDigitByte c then parseNatAcc (acc * 10 + (c - 48)) cs else none

/-- `str::parse::<usize>` on a byte slice that starts with a digit:
empty input fails, otherwise all bytes must be digits. -/
def parseNatBytes (l : List Nat) : Option Nat :=
  if l.isEmpty then none else parseNatAcc 0 l

/-- `str::parse::<i64>`: optional sign, nonempty digit run, and the
value must fit the `i64` range. -/
def parseI64 (l : List Nat) : Option Int :=
  match l with
  | [] => none
  | c :: rest =>
    if c = 43 then
      (parseNatBytes rest).bind fun n =>
        if n ≤ 2 ^ 63 - 1 then some (Int.ofNat n) else none
    else if c = 45 then
      (parseNatBytes rest).bind fun n =>
        if n ≤ 2 ^ 63 then some (-(Int.ofNat n)) else none
    else
      (parseNatBytes (c :: rest)).bind fun n =>
        if n ≤ 2 ^ 63 - 1 then some (Int.ofNat n) else none

mutual

/-- `Bencode::encode` / `encode_into`. -/
def Bencode.encB : Bencode → List Nat
  | .int i => 105 :: (intToBytes i ++ [101])
  | .bytes b => natToDec b.length ++ 58 :: b
  | .list items => 108 :: (encBList items ++ [101])
  | .dict entries => 100 :: (encBEntries entries ++ [101])

/-- The `Bencode::List` loop of `encode_into`. -/
def encBList : List Bencode → List Nat
  | [] => []
  | v :: vs => Bencode.encB v ++ encBList vs

/-- The `Bencode::Dict` loop of `encode_into`: each entry is emitted as
length-prefixed key bytes followed by the encoded value. -/
def encBEntries : List (List Nat × Bencode) → List Nat
  | [] => []
  | (k, v) :: es => (natToDec k.length ++ 58 :: k) ++ (Bencode.encB v ++ encBEntries es)

end

/-- The `while input[pos] != b` scan: splits off the longest prefix free
of byte `b`; the second component is empty iff `b` never occurs (the
Rust loop then reports EOF). -/
def splitOnByte (b : Nat) : List Nat → List Nat × List Nat
  | [] => ([], [])
  | c :: rest =>
    if c = b then ([], c :: rest)
    else
      let p := splitOnByte b rest
      (c :: p.1, p.2)

/-- Decoder error kinds: `eof` for the `UnexpectedEof` errors, `invalid`
for the `InvalidData` errors, `notFound` for the `NotFound` error of
`find_info_slice`.  `fuel` marks exhaustion of the recursion bound of
the embedding; it is proven unreachable on the inputs of interest. -/
inductive DecErr where
  | eof | invalid | notFound | fuel
deriving DecidableEq, Repr

mutual

/-- `decode(input, &mut pos)` in suffix-passing form: parse one value
from the front of the list, returning it with the unconsumed suffix.
The first argument is recursion fuel (the Rust recursion needs none
because `pos` strictly advances; sufficient fuel is proven below). -/
def decodeC : Nat → List Nat → Except DecErr (Bencode × List Nat)
  | 0, _ => .error .fuel
  | _ + 1, [] => .error .eof
  | fuel + 1, c :: rest =>
    if c = 105 then
      match splitOnByte 101 rest with
      | (numBytes, rem) =>
        match rem with
        | [] => .error .eof
        | _ :: after =>
          match parseI64 numBytes with
          | some i => .ok (.int i, after)
          | none => .error .invalid
    else if c = 108 then
      match decodeItems fuel rest with
      | .ok (vs, r) => .ok (.list vs, r)
      | .error e => .error e
    else if c = 100 then
      match decodeEntries fuel [] rest with
      | .ok (es, r) => .ok (.dict es, r)
      | .error e => .error e
    else if isDigitByte c then
      match splitOnByte 58 (c :: rest) with
      | (lenBytes, rem) =>
        match rem with
        | [] => .error .eof
        | _ :: after =>
          match parseNatBytes lenBytes with
          | some len =>
            if len ≤ after.length then .ok (.bytes (after.take len), after.drop len)
            else .error .eof
          | none => .error .invalid
    else .error .invalid

/-- The `b'l'` loop of `decode`: parse items until a closing `e`. -/
def decodeItems : Nat → List Nat → Except DecErr (List Bencode × List Nat)
  | 0, _ => .error .fuel
  | _ + 1, [] => .error .eof
  | fuel + 1, c :: rest =>
    if c = 101 then .ok ([], rest)
    else
      match decodeC fuel (c :: rest) with
      | .ok (v, r) =>
        match decodeItems fuel r with
        | .ok (vs, r2) => .ok (v :: vs, r2)
        | .error e => .error e
      | .error e => .error e

/-- The `b'd'` loop of `decode`: parse key/value pairs until a closing
`e`, inserting into the accumulated map; a non-bytes key is an error. -/
def decodeEntries : Nat → List (List Nat × Bencode) → List Nat →
    Except DecErr (List (List Nat × Bencode) × List Nat)
  | 0, _, _ => .error .fuel
  | _ + 1, _, [] => .error .eof
  | fuel + 1, acc, c :: rest =>
    if c = 101 then .ok (acc, rest)
    else
      match decodeC fuel (c :: rest) with
      | .ok (.bytes k, r) =>
        match decodeC fuel r with
        | .ok (v, r2) => decodeEntries fuel (insertSorted k v acc) r2
        | .error e => .error e
      | .ok (_, _) => .error .invalid
      | .error e => .error e

end

/-- Top level `decode(input, &mut pos)`: parse one value starting at
cursor `pos`, returning the value and the advanced cursor.  The fuel
`2 * input.length + 2` strictly exceeds the recursion depth of any
parse of the suffix (proven sufficient for encoded values below). -/
def decode (input : List Nat) (pos : Nat) : Except DecErr (Bencode × Nat) :=
  match decodeC (2 * input.length + 2) (input.drop pos) with
  | .ok (_v, rest) => .ok (_v, pos + ((input.length - pos) - rest.length))
  | .error e => .error e

/-! ## Decimal rendering and parsing lemmas -/

theorem parseNatAcc_append (xs ys : List Nat) :
    ∀ acc, parseNatAcc acc (xs ++ ys) =
      (parseNatAcc acc xs).bind fun a => parseNatAcc a ys := by
  induction xs with
  | nil => intro acc; simp [parseNatAcc]
  | cons c cs ih =>
    intro acc
    by_cases h : isDigitByte c = true
    · simp [parseNatAcc, h, ih]
    · simp [parseNatAcc, h]

theorem natToDecAux_digits :
    ∀ fuel n c, c ∈ natToDecAux fuel n → 48 ≤ c ∧ c ≤ 57 := by
  intro fuel
  induction fuel with
  | zero => intro n c hc; simp [natToDecAux] at hc
  | succ f ih =>
    intro n c hc
    by_cases h0 : n = 0
    · simp [natToDecAux, h0] at hc
    · simp [natToDecAux, h0] at hc
      rcases hc with hc | hc
      · exact ih _ _ hc
      · have : n % 10 < 10 := Nat.mod_lt _ (by omega)
        omega

theorem natToDecAux_parse :
    ∀ fuel n, n ≤ fuel →
      ∀ acc, parseNatAcc acc (natToDecAux fuel n) =
        some (acc * 10 ^ (natToDecAux fuel n).length + n) := by
  intro fuel
  induction fuel with
  | zero =>
    intro n hn acc
    have : n = 0 := by omega
    subst this
    simp [natToDecAux, parseNatAcc]
  | succ f ih =>
    intro n hn acc
    by_cases h0 : n = 0
    · subst h0; simp [natToDecAux, parseNatAcc]
    · have hdiv : n / 10 ≤ f := by
        have : n / 10 < n := Nat.div_lt_self (by omega) (by omega)
        omega
      have hd : isDigitByte (n % 10 + 48) = true := by
        have : n % 10 < 10 := Nat.mod_lt _ (by omega)
        simp [isDigitByte]
        omega
      simp only [natToDecAux, h0, if_false]
      rw [parseNatAcc_append, ih _ hdiv acc]
      simp [parseNatAcc, hd]
      have hdm : n / 10 * 10 + n % 10 = n := by
        have := Nat.div_add_mod n 10
        omega
      rw [pow_succ]
      ring_nf
      linarith [hdm]

theorem natToDec_digits (n : Nat) : ∀ c ∈ natToDec n, 48 ≤ c ∧ c ≤ 57 := by
  intro c hc
  unfold natToDec at hc
  by_cases h0 : n = 0
  · simp [h0] at hc; omega
  · simp [h0] at hc
    exact natToDecAux_digits _ _ _ hc

theorem natToDec_ne_nil (n : Nat) : natToDec n ≠ [] := by
  unfold natToDec
  by_cases h0 : n = 0
  · simp [h0]
  · simp [h0]
    obtain ⟨m, rfl⟩ : ∃ m, n = m + 1 := ⟨n - 1, by omega⟩
    simp [natToDecAux, h0]

theorem parseNatBytes_natToDec (n : Nat) : parseNatBytes (natToDec n) = some n := by
  unfold parseNatBytes
  have hne := natToDec_ne_nil n
  simp [List.isEmpty_iff, hne]
  unfold natToDec
  by_cases h0 : n = 0
  · simp [h0, parseNatAcc, isDigitByte]
  · simp [h0]
    rw [natToDecAux_parse n n (le_refl n) 0]
    simp

theorem parseI64_intToBytes (i : Int) (hlo : -(2 ^ 63) ≤ i) (hhi : i ≤ 2 ^ 63 - 1) :
    parseI64 (intToBytes i) = some i := by
  unfold intToBytes
  by_cases hneg : i < 0
  · simp only [hneg, if_true]
    have hn : ((-i).toNat : Int) = -i := Int.toNat_of_nonneg (by omega)
    simp only [parseI64]
    norm_num
    rw [parseNatBytes_natToDec]
    have hbound : (-i).toNat ≤ 2 ^ 63 := by omega
    simp [hbound]
    omega
  · simp only [hneg, if_false]
    obtain ⟨c, t, hct⟩ : ∃ c t, natToDec i.toNat = c :: t := by
      rcases h : natToDec i.toNat with _ | ⟨c, t⟩
      · exact absurd h (natToDec_ne_nil _)
      · exact ⟨c, t, rfl⟩
    have hdig := natToDec_digits i.toNat
    rw [hct] at hdig
    have hc : 48 ≤ c ∧ c ≤ 57 := hdig c (by simp)
    rw [hct]
    simp only [parseI64]
    have h43 : c ≠ 43 := by omega
    have h45 : c ≠ 45 := by omega
    simp only [h43, h45, if_false]
    rw [← hct, parseNatBytes_natToDec]
    have hbound : i.toNat ≤ 2 ^ 63 - 1 := by omega
    simp [hbound]
    omega

theorem intToBytes_no101 (i : Int) : ∀ c ∈ intToBytes i, c ≠ 101 := by
  intro c hc
  unfold intToBytes at hc
  by_cases hneg : i < 0
  · simp [hneg] at hc
    rcases hc with hc | hc
    · omega
    · have := natToDec_digits (-i).toNat c hc
      omega
  · simp [hneg] at hc
    have := natToDec_digits i.toNat c hc
    omega

theorem splitOnByte_append (b : Nat) (xs ys : List Nat) (hxs : ∀ c ∈ xs, c ≠ b) :
    splitOnByte b (xs ++ b :: ys) = (xs, b :: ys) := by
  induction xs with
  | nil => simp [splitOnByte]
  | cons c cs ih =>
    have hc : c ≠ b := hxs c (by simp)
    have ih2 := ih (fun d hd => hxs d (by simp [hd]))
    simp [splitOnByte, hc, ih2]

/-! ## Lexicographic order lemmas -/

theorem lexLt_irrefl (a : List Nat) : lexLt a a = false := by
  induction a with
  | nil => rfl
  | cons x xs ih => simp [lexLt, ih]

theorem lexLt_trans : ∀ a b c : List Nat,
    lexLt a b = true → lexLt b c = true → lexLt a c = true := by
  intro a
  induction a with
  | nil =>
    intro b c hab hbc
    cases b with
    | nil => simp [lexLt] at hab
    | cons y ys =>
      cases c with
      | nil => simp [lexLt] at hbc
      | cons z zs => simp [lexLt]
  | cons x xs ih =>
    intro b c hab hbc
    cases b with
    | nil => simp [lexLt] at hab
    | cons y ys =>
      cases c with
      | nil => simp [lexLt] at hbc
      | cons z zs =>
        simp only [lexLt, Bool.or_eq_true, Bool.and_eq_true, beq_iff_eq,
          decide_eq_true_eq] at hab hbc ⊢
        rcases hab with h1 | ⟨h1, h1r⟩ <;> rcases hbc with h2 | ⟨h2, h2r⟩
        · exact Or.inl (by omega)
        · exact Or.inl (by omega)
        · exact Or.inl (by omega)
        · exact Or.inr ⟨by omega, ih ys zs h1r h2r⟩

theorem lexLt_asymm {a b : List Nat} (h : lexLt a b = true) : lexLt b a = false := by
  by_contra hc
  have hba : lexLt b a = true := by
    revert hc
    cases lexLt b a <;> simp
  have := lexLt_trans a b a h hba
  rw [lexLt_irrefl] at this
  exact absurd this (by simp)

theorem lexLt_ne {a b : List Nat} (h : lexLt a b = true) : a ≠ b := by
  intro hEq
  subst hEq
  rw [lexLt_irrefl] at h
  exact absurd h (by simp)

theorem insertSorted_append (k : List Nat) (v : Bencode) :
    ∀ acc, (∀ e ∈ acc, lexLt e.1 k = true) → insertSorted k v acc = acc ++ [(k, v)] := by
  intro acc
  induction acc with
  | nil => intro _; rfl
  | cons e acc' ih =>
    intro h
    obtain ⟨k0, v0⟩ := e
    have hk0 : lexLt k0 k = true := h (k0, v0) (by simp)
    have h1 : lexLt k k0 = false := lexLt_asymm hk0
    have h2 : k ≠ k0 := fun hEq => lexLt_ne hk0 hEq.symm
    simp only [insertSorted, h1, h2, if_false, Bool.false_eq_true]
    rw [ih (fun e he => h e (by simp [he]))]
    simp

/-! ## Admissible values and recursion bounds -/

/-- Strictly increasing (lexicographic) key sequence, the order in which
`encode_into` emits a `BTreeMap`'s entries. -/
def keysChain : List (List Nat × Bencode) → Bool
  | [] => true
  | [_] => true
  | (k1, _) :: (k2, v2) :: rest => lexLt k1 k2 && keysChain ((k2, v2) :: rest)

mutual

/-- A value representable by the Rust `Bencode` type: integers fit in
`i64`, byte strings hold bytes, and every dictionary's entry list is in
strictly increasing key order (the `BTreeMap` representation invariant). -/
def Bencode.admissible : Bencode → Bool
  | .int i => decide (-(2 ^ 63) ≤ i) && decide (i ≤ 2 ^ 63 - 1)
  | .bytes b => b.all (fun c => c < 256)
  | .list items => admissibleL items
  | .dict entries => keysChain entries && admissibleE entries

def admissibleL : List Bencode → Bool
  | [] => true
  | v :: vs => Bencode.admissible v && admissibleL vs

def admissibleE : List (List Nat × Bencode) → Bool
  | [] => true
  | (k, v) :: es => k.all (fun c => c < 256) && Bencode.admissible v && admissibleE es

end

mutual

/-- Upper bound on the recursion fuel `decodeC` needs to parse the
encoding of a value. -/
def fuelB : Bencode → Nat
  | .int _ => 1
  | .bytes _ => 1
  | .list items => 1 + fuelL items
  | .dict entries => 1 + fuelE entries

def fuelL : List Bencode → Nat
  | [] => 1
  | v :: vs => 1 + max (fuelB v) (fuelL vs)

def fuelE : List (List Nat × Bencode) → Nat
  | [] => 1
  | (_, v) :: es => 1 + max 1 (max (fuelB v) (fuelE es))

end

/-- Structural induction for the nested inductive `Bencode`. -/
theorem Bencode.recAux {P : Bencode → Prop}
    (hint : ∀ i, P (.int i)) (hbytes : ∀ b, P (.bytes b))
    (hlist : ∀ items, (∀ v ∈ items, P v) → P (.list items))
    (hdict : ∀ entries, (∀ e ∈ entries, P e.2) → P (.dict entries)) :
    ∀ v, P v := by
  have key : ∀ n v, sizeOf v ≤ n → P v := by
    intro n
    induction n with
    | zero =>
      intro v h
      exfalso
      cases v <;> simp at h
    | succ n ih =>
      intro v h
      match v with
      | .int i => exact hint i
      | .bytes b => exact hbytes b
      | .list items =>
        refine hlist items (fun v hv => ih v ?_)
        have h1 : sizeOf v < sizeOf items := List.sizeOf_lt_of_mem hv
        simp at h
        omega
      | .dict entries =>
        refine hdict entries (fun e he => ih e.2 ?_)
        have h1 : sizeOf e < sizeOf entries := List.sizeOf_lt_of_mem he
        obtain ⟨k, v⟩ := e
        simp at h1 ⊢
        simp at h
        omega
  intro v
  exact key (sizeOf v) v (le_refl _)

/-! ## Key-chain lemmas -/

theorem keysChain_tail {e : List Nat × Bencode} {es : List (List Nat × Bencode)}
    (h : keysChain (e :: es) = true) : keysChain es = true := by
  obtain ⟨k, v⟩ := e
  cases es with
  | nil => rfl
  | cons e2 es2 =>
    obtain ⟨k2, v2⟩ := e2
    simp [keysChain] at h
    exact h.2

theorem keysChain_head {k0 : List Nat} {v0 : Bencode} {es : List (List Nat × Bencode)}
    (h : keysChain ((k0, v0) :: es) = true) : ∀ e ∈ es, lexLt k0 e.1 = true := by
  induction es generalizing k0 v0 with
  | nil => intro e he; simp at he
  | cons e2 es2 ih =>
    intro e he
    obtain ⟨k2, v2⟩ := e2
    have h12 : lexLt k0 k2 = true := by
      simp [keysChain] at h
      exact h.1
    rcases List.mem_cons.mp he with rfl | he2
    · exact h12
    · exact lexLt_trans _ _ _ h12 (ih (keysChain_tail h) e he2)

theorem keysChain_before {xs : List (List Nat × Bencode)} {k : List Nat} {v : Bencode}
    {ys : List (List Nat × Bencode)}
    (h : keysChain (xs ++ (k, v) :: ys) = true) : ∀ e ∈ xs, lexLt e.1 k = true := by
  induction xs with
  | nil => intro e he; simp at he
  | cons e0 xs' ih =>
    intro e he
    obtain ⟨k0, v0⟩ := e0
    rcases List.mem_cons.mp he with rfl | he'
    · exact keysChain_head h (k, v) (by simp)
    · exact ih (keysChain_tail h) e he'

/-! ## Decode/encode roundtrip -/

theorem decodeC_bytes (b : List Nat) :
    ∀ fuel rest, 1 ≤ fuel →
      decodeC fuel (Bencode.encB (.bytes b) ++ rest) = .ok (.bytes b, rest) := by
  intro fuel rest hf
  obtain ⟨f, rfl⟩ : ∃ f, fuel = f + 1 := ⟨fuel - 1, by omega⟩
  obtain ⟨c, t, hct⟩ : ∃ c t, natToDec b.length = c :: t := by
    rcases h : natToDec b.length with _ | ⟨c, t⟩
    · exact absurd h (natToDec_ne_nil _)
    · exact ⟨c, t, rfl⟩
  have hcd : 48 ≤ c ∧ c ≤ 57 := by
    have := natToDec_digits b.length c (by rw [hct]; simp)
    exact this
  have hshape : Bencode.encB (.bytes b) ++ rest = c :: (t ++ 58 :: (b ++ rest)) := by
    show (natToDec b.length ++ 58 :: b) ++ rest = _
    rw [hct]
    simp
  rw [hshape]
  have h105 : ¬(c = 105) := by omega
  have h108 : ¬(c = 108) := by omega
  have h100 : ¬(c = 100) := by omega
  have hdig : isDigitByte c = true := by simp [isDigitByte]; omega
  simp only [decodeC, h105, h108, h100, hdig, if_false, if_true]
  have hsplit : splitOnByte 58 (c :: (t ++ 58 :: (b ++ rest)))
      = (natToDec b.length, 58 :: (b ++ rest)) := by
    have hback : c :: (t ++ 58 :: (b ++ rest)) = natToDec b.length ++ 58 :: (b ++ rest) := by
      rw [hct]; simp
    rw [hback]
    refine splitOnByte_append 58 _ _ ?_
    intro d hd
    have := natToDec_digits b.length d hd
    omega
  rw [hsplit]
  simp only [parseNatBytes_natToDec]
  have hlen : b.length ≤ (b ++ rest).length := by simp
  simp [hlen, List.take_left, List.drop_left]

theorem decodeC_int (i : Int) (hlo : -(2 ^ 63) ≤ i) (hhi : i ≤ 2 ^ 63 - 1) :
    ∀ fuel rest, 1 ≤ fuel →
      decodeC fuel (Bencode.encB (.int i) ++ rest) = .ok (.int i, rest) := by
  intro fuel rest hf
  obtain ⟨f, rfl⟩ : ∃ f, fuel = f + 1 := ⟨fuel - 1, by omega⟩
  have hshape : Bencode.encB (.int i) ++ rest = 105 :: (intToBytes i ++ 101 :: rest) := by
    show (105 :: (intToBytes i ++ [101])) ++ rest = _
    simp
  rw [hshape]
  simp only [decodeC, if_true, reduceIte]
  rw [splitOnByte_append 101 (intToBytes i) rest (intToBytes_no101 i)]
  simp [parseI64_intToBytes i hlo hhi]

theorem encB_head (v : Bencode) : ∃ c t, Bencode.encB v = c :: t ∧ c ≠ 101 := by
  cases v with
  | int i => exact ⟨105, _, rfl, by omega⟩
  | bytes b =>
    obtain ⟨c, t, hct⟩ : ∃ c t, natToDec b.length = c :: t := by
      rcases h : natToDec b.length with _ | ⟨c, t⟩
      · exact absurd h (natToDec_ne_nil _)
      · exact ⟨c, t, rfl⟩
    have hcd := natToDec_digits b.length c (by rw [hct]; simp)
    refine ⟨c, t ++ 58 :: b, ?_, by omega⟩
    show natToDec b.length ++ 58 :: b = _
    rw [hct]
    simp
  | list items => exact ⟨108, _, rfl, by omega⟩
  | dict entries => exact ⟨100, _, rfl, by omega⟩

theorem decodeItems_encBList (its : List Bencode)
    (IH : ∀ v ∈ its, Bencode.admissible v = true →
      ∀ fuel rest, fuelB v ≤ fuel → decodeC fuel (Bencode.encB v ++ rest) = .ok (v, rest))
    (hadm : admissibleL its = true) :
    ∀ fuel rest, fuelL its ≤ fuel →
      decodeItems fuel (encBList its ++ 101 :: rest) = .ok (its, rest) := by
  induction its with
  | nil =>
    intro fuel rest hfu
    obtain ⟨f, rfl⟩ : ∃ f, fuel = f + 1 := ⟨fuel - 1, by simp [fuelL] at hfu; omega⟩
    simp [encBList, decodeItems]
  | cons v vs ih =>
    intro fuel rest hfu
    simp only [fuelL] at hfu
    obtain ⟨f, rfl⟩ : ∃ f, fuel = f + 1 := ⟨fuel - 1, by omega⟩
    simp only [admissibleL, Bool.and_eq_true] at hadm
    obtain ⟨c, t, hct, hc101⟩ := encB_head v
    have hshape : encBList (v :: vs) ++ 101 :: rest
        = c :: (t ++ (encBList vs ++ 101 :: rest)) := by
      show (Bencode.encB v ++ encBList vs) ++ 101 :: rest = _
      rw [hct]
      simp
    rw [hshape]
    simp only [decodeItems, hc101, if_false]
    have hv : decodeC f (Bencode.encB v ++ (encBList vs ++ 101 :: rest))
        = .ok (v, encBList vs ++ 101 :: rest) :=
      IH v (by simp) hadm.1 f _ (by omega)
    have hv2 : decodeC f (c :: (t ++ (encBList vs ++ 101 :: rest)))
        = .ok (v, encBList vs ++ 101 :: rest) := by
      rw [← hv]
      congr 1
      rw [hct]
      simp
    have hitems := ih (fun w hw hwa => IH w (by simp [hw]) hwa) hadm.2 f rest (by omega)
    simp only [hv2, hitems]

theorem decodeEntries_encBEntries (es : List (List Nat × Bencode))
    (IH : ∀ e ∈ es, Bencode.admissible e.2 = true →
      ∀ fuel rest, fuelB e.2 ≤ fuel → decodeC fuel (Bencode.encB e.2 ++ rest) = .ok (e.2, rest))
    (hadm : admissibleE es = true) :
    ∀ acc fuel rest, fuelE es ≤ fuel → keysChain (acc ++ es) = true →
      decodeEntries fuel acc (encBEntries es ++ 101 :: rest) = .ok (acc ++ es, rest) := by
  induction es with
  | nil =>
    intro acc fuel rest hfu hch
    obtain ⟨f, rfl⟩ : ∃ f, fuel = f + 1 := ⟨fuel - 1, by simp [fuelE] at hfu; omega⟩
    simp [encBEntries, decodeEntries]
  | cons e es' ih =>
    obtain ⟨k, v⟩ := e
    intro acc fuel rest hfu hch
    simp only [fuelE] at hfu
    obtain ⟨f, rfl⟩ : ∃ f, fuel = f + 1 := ⟨fuel - 1, by omega⟩
    have hfv : fuelB v ≤ f := by omega
    have hfe : fuelE es' ≤ f := by omega
    simp only [admissibleE, Bool.and_eq_true] at hadm
    obtain ⟨c, t, hct, hc101⟩ := encB_head (.bytes k)
    have hshape : encBEntries ((k, v) :: es') ++ 101 :: rest
        = c :: (t ++ (Bencode.encB v ++ (encBEntries es' ++ 101 :: rest))) := by
      show ((natToDec k.length ++ 58 :: k) ++ (Bencode.encB v ++ encBEntries es')) ++ 101 :: rest
        = _
    -- the entry's key bytes are exactly `Bencode.encB (.bytes k)`
      have hk : natToDec k.length ++ 58 :: k = c :: t := hct
      rw [hk]
      simp
    rw [hshape]
    simp only [decodeEntries, hc101, if_false]
    have hkdec : decodeC f (Bencode.encB (.bytes k) ++ (Bencode.encB v ++ (encBEntries es' ++ 101 :: rest)))
        = .ok (.bytes k, Bencode.encB v ++ (encBEntries es' ++ 101 :: rest)) :=
      decodeC_bytes k f _ (by omega)
    have hkdec2 : decodeC f (c :: (t ++ (Bencode.encB v ++ (encBEntries es' ++ 101 :: rest))))
        = .ok (.bytes k, Bencode.encB v ++ (encBEntries es' ++ 101 :: rest)) := by
      rw [← hkdec]
      congr 1
      rw [hct]
      simp
    have hvdec : decodeC f (Bencode.encB v ++ (encBEntries es' ++ 101 :: rest))
        = .ok (v, encBEntries es' ++ 101 :: rest) :=
      IH (k, v) (by simp) hadm.1.2 f _ hfv
    have hins : insertSorted k v acc = acc ++ [(k, v)] :=
      insertSorted_append k v acc (keysChain_before hch)
    have hassoc : (acc ++ [(k, v)]) ++ es' = acc ++ (k, v) :: es' := by simp
    have hrec := ih (fun e he hea => IH e (by simp [he]) hea) hadm.2 (acc ++ [(k, v)]) f rest hfe
        (by rw [hassoc]; exact hch)
    simp only [hkdec2, hvdec, hins, hrec, hassoc]

theorem decodeC_encB : ∀ v : Bencode, Bencode.admissible v = true →
    ∀ fuel rest, fuelB v ≤ fuel →
      decodeC fuel (Bencode.encB v ++ rest) = .ok (v, rest) := by
  intro v
  induction v using Bencode.recAux with
  | hint i =>
    intro hadm fuel rest hfu
    simp only [Bencode.admissible, Bool.and_eq_true, decide_eq_true_eq] at hadm
    exact decodeC_int i hadm.1 hadm.2 fuel rest (by simp [fuelB] at hfu; omega)
  | hbytes b =>
    intro _ fuel rest hfu
    exact decodeC_bytes b fuel rest (by simp [fuelB] at hfu; omega)
  | hlist items ih =>
    intro hadm fuel rest hfu
    simp only [fuelB] at hfu
    obtain ⟨f, rfl⟩ : ∃ f, fuel = f + 1 := ⟨fuel - 1, by omega⟩
    simp only [Bencode.admissible] at hadm
    have hshape : Bencode.encB (.list items) ++ rest = 108 :: (encBList items ++ 101 :: rest) := by
      show (108 :: (encBList items ++ [101])) ++ rest = _
      simp
    rw [hshape]
    have hit := decodeItems_encBList items ih hadm f rest (by omega)
    simp only [decodeC, hit]
    norm_num
  | hdict entries ih =>
    intro hadm fuel rest hfu
    simp only [fuelB] at hfu
    obtain ⟨f, rfl⟩ : ∃ f, fuel = f + 1 := ⟨fuel - 1, by omega⟩
    simp only [Bencode.admissible, Bool.and_eq_true] at hadm
    have hshape : Bencode.encB (.dict entries) ++ rest
        = 100 :: (encBEntries entries ++ 101 :: rest) := by
      show (100 :: (encBEntries entries ++ [101])) ++ rest = _
      simp
    rw [hshape]
    have hen := decodeEntries_encBEntries entries ih hadm.2 [] f rest (by omega)
      (by simpa using hadm.1)
    simp only [decodeC, hen]
    norm_num

theorem encB_length_pos (v : Bencode) : 1 ≤ (Bencode.encB v).length := by
  obtain ⟨c, t, hct, _⟩ := encB_head v
  rw [hct]
  simp

theorem natToDec_length_pos (n : Nat) : 1 ≤ (natToDec n).length := by
  rcases h : natToDec n with _ | ⟨c, t⟩
  · exact absurd h (natToDec_ne_nil n)
  · simp

theorem fuelL_le (items : List Bencode)
    (IH : ∀ v ∈ items, fuelB v + 1 ≤ 2 * (Bencode.encB v).length) :
    fuelL items ≤ 2 * (encBList items).length + 1 := by
  induction items with
  | nil => simp [fuelL, encBList]
  | cons v vs ih =>
    have h1 := IH v (by simp)
    have h2 := ih (fun w hw => IH w (by simp [hw]))
    have h3 := encB_length_pos v
    simp only [fuelL, encBList, List.length_append]
    omega

theorem fuelE_le (es : List (List Nat × Bencode))
    (IH : ∀ e ∈ es, fuelB e.2 + 1 ≤ 2 * (Bencode.encB e.2).length) :
    fuelE es ≤ 2 * (encBEntries es).length + 1 := by
  induction es with
  | nil => simp [fuelE, encBEntries]
  | cons e es' ih =>
    obtain ⟨k, v⟩ := e
    have h1 : fuelB v + 1 ≤ 2 * (Bencode.encB v).length := IH (k, v) (by simp)
    have h2 := ih (fun w hw => IH w (by simp [hw]))
    have h3 := encB_length_pos v
    have h4 := natToDec_length_pos k.length
    simp only [fuelE, encBEntries, List.length_append, List.length_cons]
    omega

theorem fuelB_le : ∀ v : Bencode, fuelB v + 1 ≤ 2 * (Bencode.encB v).length := by
  intro v
  induction v using Bencode.recAux with
  | hint i =>
    have : Bencode.encB (.int i) = 105 :: (intToBytes i ++ [101]) := rfl
    rw [this]
    simp [fuelB]
  | hbytes b =>
    have : Bencode.encB (.bytes b) = natToDec b.length ++ 58 :: b := rfl
    rw [this]
    have := natToDec_length_pos b.length
    simp [fuelB]
    omega
  | hlist items ih =>
    have hl : Bencode.encB (.list items) = 108 :: (encBList items ++ [101]) := rfl
    rw [hl]
    have := fuelL_le items ih
    simp only [fuelB, List.length_cons, List.length_append]
    omega
  | hdict entries ih =>
    have hd : Bencode.encB (.dict entries) = 100 :: (encBEntries entries ++ [101]) := rfl
    rw [hd]
    have := fuelE_le entries ih
    simp only [fuelB, List.length_cons, List.length_append]
    omega

mutual

/-- Checks that every dictionary anywhere inside the value has its
entry list (the order `encode_into` emits) in strictly increasing
lexicographic key order. -/
def dictKeysSortedB : Bencode → Bool
  | .int _ => true
  | .bytes _ => true
  | .list items => dictKeysSortedL items
  | .dict entries => keysChain entries && dictKeysSortedE entries

def dictKeysSortedL : List Bencode → Bool
  | [] => true
  | v :: vs => dictKeysSortedB v && dictKeysSortedL vs

def dictKeysSortedE : List (List Nat × Bencode) → Bool
  | [] => true
  | (_, v) :: es => dictKeysSortedB v && dictKeysSortedE es

end

theorem dictKeysSortedB_of_admissible :
    ∀ v : Bencode, Bencode.admissible v = true → dictKeysSortedB v = true := by
  intro v
  induction v using Bencode.recAux with
  | hint i => intro _; rfl
  | hbytes b => intro _; rfl
  | hlist items ih =>
    intro hadm
    simp only [Bencode.admissible] at hadm
    simp only [dictKeysSortedB]
    induction items with
    | nil => rfl
    | cons v vs ihs =>
      simp only [admissibleL, Bool.and_eq_true] at hadm
      simp only [dictKeysSortedL, Bool.and_eq_true]
      exact ⟨ih v (by simp) hadm.1,
        ihs (fun w hw => ih w (by simp [hw])) hadm.2⟩
  | hdict entries ih =>
    intro hadm
    simp only [Bencode.admissible, Bool.and_eq_true] at hadm
    simp only [dictKeysSortedB, Bool.and_eq_true]
    refine ⟨hadm.1, ?_⟩
    obtain ⟨hch, hadm⟩ := hadm
    clear hch
    induction entries with
    | nil => rfl
    | cons e es' ihs =>
      obtain ⟨k, v⟩ := e
      simp only [admissibleE, Bool.and_eq_true] at hadm
      simp only [dictKeysSortedE, Bool.and_eq_true]
      exact ⟨ih (k, v) (by simp) hadm.1.2,
        ihs (fun w hw => ih w (by simp [hw])) hadm.2⟩

/-- C1: for every admissible bencode value `v` (integer in the `i64`
range, byte string, list, or mapping with byte-string keys in the
`BTreeMap` order invariant), decoding `encode v` starting at cursor 0
succeeds and returns `v` with the cursor advanced past the whole
encoding; and the keys of every mapping inside `v` — the order in
which `encode` emits them — are strictly increasing in lexicographic
byte order. -/
theorem C1_codec_roundtrip (v : Bencode) (hadm : Bencode.admissible v = true) :
    decode (Bencode.encB v) 0 = .ok (v, (Bencode.encB v).length) ∧
      dictKeysSortedB v = true := by
  refine ⟨?_, dictKeysSortedB_of_admissible v hadm⟩
  unfold decode
  have hfu : fuelB v ≤ 2 * (Bencode.encB v).length + 2 := by
    have := fuelB_le v
    omega
  have h := decodeC_encB v hadm (2 * (Bencode.encB v).length + 2) [] hfu
  rw [List.append_nil] at h
  simp [h]

/-- Witness for C1 at the spec's S2 dictionary
`{"a" → 1, "b" → "c"}`, whose encoding is `d1:ai1e1:b1:ce`. -/
theorem C1_codec_roundtrip_witness :
    Bencode.admissible (.dict [([97], .int 1), ([98], .bytes [99])]) = true ∧
      (decode (Bencode.encB (.dict [([97], .int 1), ([98], .bytes [99])])) 0 =
          .ok (.dict [([97], .int 1), ([98], .bytes [99])],
            (Bencode.encB (.dict [([97], .int 1), ([98], .bytes [99])])).length) ∧
        dictKeysSortedB (.dict [([97], .int 1), ([98], .bytes [99])]) = true) :=
  ⟨by decide, C1_codec_roundtrip (.dict [([97], .int 1), ([98], .bytes [99])]) (by decide)⟩

/-! # Locating the raw "info" slice (src/tds_core/src/bencoding/info_slice.rs) -/

/-- The entry loop of `find_info_slice`: decode a key, return the raw
byte slice of the following value if the key is `info` (bytes
105,110,102,111), otherwise skip the value and continue.  Decode calls
receive the same generous fuel the top-level `decode` wrapper uses;
the loop fuel counts entries and is never exhausted on encoded input. -/
def findInfoGo : Nat → List Nat → Except DecErr (List Nat)
  | 0, _ => .error .fuel
  | _ + 1, [] => .error .notFound
  | fuel + 1, c :: rest =>
    if c = 101 then .error .notFound
    else
      match decodeC (2 * (c :: rest).length + 2) (c :: rest) with
      | .ok (.bytes kb, r) =>
        if kb = [105, 110, 102, 111] then
          match decodeC (2 * r.length + 2) r with
          | .ok (_, r2) => .ok (r.take (r.length - r2.length))
          | .error _ => .error .invalid
        else
          match decodeC (2 * r.length + 2) r with
          | .ok (_, r2) => findInfoGo fuel r2
          | .error _ => .error .invalid
      | .ok (_, _) => .error .invalid
      | .error _ => .error .invalid

/-- `find_info_slice(input)`: require a top-level dictionary and scan
its entries for the key `info`, returning the exact byte range of the
bound value. -/
def findInfoSlice (input : List Nat) : Except DecErr (List Nat) :=
  match input with
  | 100 :: r => findInfoGo (input.length + 1) r
  | _ => .error .invalid

theorem encBEntries_length_ge (es : List (List Nat × Bencode)) :
    es.length ≤ (encBEntries es).length := by
  induction es with
  | nil => simp [encBEntries]
  | cons e es' ih =>
    obtain ⟨k, v⟩ := e
    have h1 := natToDec_length_pos k.length
    have h2 := encB_length_pos v
    simp only [encBEntries, List.length_append, List.length_cons]
    omega

theorem findInfoGo_encBEntries (es : List (List Nat × Bencode)) :
    admissibleE es = true → keysChain es = true →
    ∀ v : Bencode, ([105, 110, 102, 111], v) ∈ es →
    ∀ fuel suffix, es.length + 1 ≤ fuel →
      findInfoGo fuel (encBEntries es ++ 101 :: suffix) = .ok (Bencode.encB v) := by
  induction es with
  | nil =>
    intro _ _ v hmem
    simp at hmem
  | cons e es' ih =>
    obtain ⟨k, w⟩ := e
    intro hadm hch v hmem fuel suffix hfu
    simp only [admissibleE, Bool.and_eq_true] at hadm
    obtain ⟨f, rfl⟩ : ∃ f, fuel = f + 1 := ⟨fuel - 1, by simp at hfu; omega⟩
    obtain ⟨c, t, hct, hc101⟩ := encB_head (.bytes k)
    have hshape : encBEntries ((k, w) :: es') ++ 101 :: suffix
        = c :: (t ++ (Bencode.encB w ++ (encBEntries es' ++ 101 :: suffix))) := by
      show ((natToDec k.length ++ 58 :: k) ++ (Bencode.encB w ++ encBEntries es'))
          ++ 101 :: suffix = _
      have hk : natToDec k.length ++ 58 :: k = c :: t := hct
      rw [hk]
      simp
    rw [hshape]
    simp only [findInfoGo, hc101, if_false]
    have hkdec : decodeC (2 * (c :: (t ++ (Bencode.encB w ++ (encBEntries es' ++ 101 :: suffix)))).length + 2)
          (c :: (t ++ (Bencode.encB w ++ (encBEntries es' ++ 101 :: suffix))))
        = .ok (.bytes k, Bencode.encB w ++ (encBEntries es' ++ 101 :: suffix)) := by
      have hback : c :: (t ++ (Bencode.encB w ++ (encBEntries es' ++ 101 :: suffix)))
          = Bencode.encB (.bytes k) ++ (Bencode.encB w ++ (encBEntries es' ++ 101 :: suffix)) := by
        rw [hct]
        simp
      rw [hback]
      exact decodeC_bytes k _ _ (by omega)
    set R := Bencode.encB w ++ (encBEntries es' ++ 101 :: suffix) with hR
    have hwdec : decodeC (2 * R.length + 2) R
        = .ok (w, encBEntries es' ++ 101 :: suffix) := by
      refine decodeC_encB w hadm.1.2 _ _ ?_
      have h1 := fuelB_le w
      have h2 : (Bencode.encB w).length ≤ R.length := by
        rw [hR]
        simp
      omega
    by_cases hk : k = [105, 110, 102, 111]
    · have hvw : v = w := by
        rcases List.mem_cons.mp hmem with heq | hmem'
        · exact congrArg Prod.snd heq
        · exfalso
          have := keysChain_head hch ([105, 110, 102, 111], v) hmem'
          rw [hk] at this
          rw [lexLt_irrefl] at this
          exact absurd this (by simp)
      subst hvw
      subst hk
      simp only [hkdec, hwdec, if_true, reduceIte]
      have hlen : R.length - (encBEntries es' ++ 101 :: suffix).length
          = (Bencode.encB v).length := by
        rw [hR]
        simp
      rw [hlen, hR, List.take_left]
    · have hmem' : ([105, 110, 102, 111], v) ∈ es' := by
        rcases List.mem_cons.mp hmem with heq | hmem'
        · exact absurd (congrArg Prod.fst heq).symm hk
        · exact hmem'
      have hrec := ih hadm.2 (keysChain_tail hch) v hmem' f suffix (by simp at hfu; omega)
      simp only [hkdec, hk, if_false, hwdec, hrec, reduceIte]

/-- C8: for every admissible mapping whose encoding is a top-level
bencode dictionary binding the key `info` (bytes 105,110,102,111),
`find_info_slice` on the encoded bytes returns exactly the byte
sub-slice that is the encoding of the value bound to `info`; in
particular on the bytes `d4:infod3:bar3:baze5:otheri1ee` it returns
`d3:bar3:baze`. -/
theorem C8_locate_info (es : List (List Nat × Bencode)) (v : Bencode)
    (hadm : Bencode.admissible (.dict es) = true)
    (hmem : ([105, 110, 102, 111], v) ∈ es) :
    findInfoSlice (Bencode.encB (.dict es)) = .ok (Bencode.encB v) ∧
      findInfoSlice
          [100, 52, 58, 105, 110, 102, 111,
           100, 51, 58, 98, 97, 114, 51, 58, 98, 97, 122, 101,
           53, 58, 111, 116, 104, 101, 114, 105, 49, 101, 101]
        = .ok [100, 51, 58, 98, 97, 114, 51, 58, 98, 97, 122, 101] := by
  refine ⟨?_, rfl⟩
  simp only [Bencode.admissible, Bool.and_eq_true] at hadm
  have hshape : Bencode.encB (.dict es) = 100 :: (encBEntries es ++ 101 :: []) := rfl
  rw [hshape]
  simp only [findInfoSlice]
  have hlen := encBEntries_length_ge es
  exact findInfoGo_encBEntries es hadm.2 hadm.1 v hmem _ [] (by simp; omega)

/-- Witness for C8: the S3 dictionary itself,
`{"info" → {"bar" → "baz"}, "other" → 1}`. -/
theorem C8_locate_info_witness :
    Bencode.admissible (.dict
        [([105, 110, 102, 111], .dict [([98, 97, 114], .bytes [98, 97, 122])]),
         ([111, 116, 104, 101, 114], .int 1)]) = true ∧
      ([105, 110, 102, 111], Bencode.dict [([98, 97, 114], .bytes [98, 97, 122])]) ∈
        [([105, 110, 102, 111], Bencode.dict [([98, 97, 114], .bytes [98, 97, 122])]),
         ([111, 116, 104, 101, 114], Bencode.int 1)] ∧
      findInfoSlice (Bencode.encB (.dict
          [([105, 110, 102, 111], .dict [([98, 97, 114], .bytes [98, 97, 122])]),
           ([111, 116, 104, 101, 114], .int 1)]))
        = .ok (Bencode.encB (.dict [([98, 97, 114], .bytes [98, 97, 122])])) :=
  ⟨by decide, by simp,
    (C8_locate_info _ _ (by decide) (by simp)).1⟩

/-! # Peer bitfield membership (src/client/src/peer/mod.rs, `has_piece`) -/

/-- `PeerConnection::has_piece(index)`: byte `index / 8`, bit
`7 - (index % 8)`; a byte index at or beyond the stored bitfield's end
yields `false` (the Rust guard `byte_index < self.bitfield.len()`). -/
def hasPiece (bitfield : List Nat) (index : Nat) : Bool :=
  let byteIndex := index / 8
  let bitIndex := 7 - index % 8
  if h : byteIndex < bitfield.length then
    (bitfield.get ⟨byteIndex, h⟩ >>> bitIndex) &&& 1 == 1
  else
    false

/-- C9: the bitfield membership test is a total function — the
out-of-range branch returns `false` rather than indexing past the end,
so a `Have`/`Request` index whose byte offset is at or beyond the
stored bitfield is treated as "peer does not have it". -/
theorem C9_has_piece_total (bitfield : List Nat) (index : Nat)
    (h : bitfield.length ≤ index / 8) : hasPiece bitfield index = false := by
  unfold hasPiece
  simp only
  rw [dif_neg (by omega)]

/-- Witness for C9: piece 16 against a 2-byte bitfield. -/
theorem C9_has_piece_total_witness :
    [255, 255].length ≤ 16 / 8 ∧ hasPiece [255, 255] 16 = false :=
  ⟨by decide, C9_has_piece_total [255, 255] 16 (by decide)⟩

/-! # Output-file length forcing (src/client/src/downloader/init.rs, `from_torrent`) -/

/-- The length-adjustment step of `from_torrent`: `set_len(total_length)`
runs whenever the existing file length differs from `total_length` in
either direction (`if file_len != total_length`), and `set_len` both
truncates and extends. -/
def forcedFileLen (fileLen totalLength : Nat) : Nat :=
  if fileLen ≠ totalLength then totalLength else fileLen

/-- C10: initialization forces the output file's length to exactly
`total_length` whatever the pre-existing length was — in particular a
longer file is truncated down, not merely a shorter one extended. -/
theorem C10_file_len_forced (fileLen totalLength : Nat) :
    forcedFileLen fileLen totalLength = totalLength ∧
      (totalLength < fileLen → forcedFileLen fileLen totalLength < fileLen) := by
  constructor
  · unfold forcedFileLen
    by_cases h : fileLen = totalLength <;> simp [h]
  · intro hlt
    unfold forcedFileLen
    rw [if_pos (by omega)]
    exact hlt

/-- Witness for C10: a 20-byte file truncated to 10 bytes. -/
theorem C10_file_len_forced_witness :
    forcedFileLen 20 10 = 10 ∧ (10 < 20 → forcedFileLen 20 10 < 20) :=
  C10_file_len_forced 20 10

/-! # Piece natural length (manager.rs claim path and init.rs resume scan) -/

/-- The buffer length computed in `manager::run` when a session claims
piece `i`:
`if i == piece_count - 1 { let rem = total_length % piece_length;
 if rem == 0 { piece_length } else { rem } } else { piece_length }`. -/
def claimBufLen (totalLength pieceLength pieceCount i : Nat) : Nat :=
  if i = pieceCount - 1 then
    if totalLength % pieceLength = 0 then pieceLength else totalLength % pieceLength
  else pieceLength

/-- The per-piece hash length computed in `init::check_existing_data`
for the resume scan — textually the same computation as the claim path. -/
def scanPieceLen (totalLength pieceLength pieceCount i : Nat) : Nat :=
  if i = pieceCount - 1 then
    if totalLength % pieceLength = 0 then pieceLength else totalLength % pieceLength
  else pieceLength

/-- The spec's wording of the natural piece length: `piece_length`
except for the last piece, whose length is
`((total_length - 1) mod piece_length) + 1`. -/
def specNaturalLen (totalLength pieceLength pieceCount i : Nat) : Nat :=
  if i = pieceCount - 1 then (totalLength - 1) % pieceLength + 1 else pieceLength

theorem lastLen_eq (totalLength pieceLength : Nat)
    (htot : 1 ≤ totalLength) (hpl : 1 ≤ pieceLength) :
    (if totalLength % pieceLength = 0 then pieceLength else totalLength % pieceLength)
      = (totalLength - 1) % pieceLength + 1 := by
  rcases Nat.lt_or_ge totalLength pieceLength with hsm | hge
  · have h1 : totalLength % pieceLength = totalLength := Nat.mod_eq_of_lt hsm
    have h2 : (totalLength - 1) % pieceLength = totalLength - 1 :=
      Nat.mod_eq_of_lt (by omega)
    rw [h1, h2]
    have : ¬(totalLength = 0) := by omega
    simp [this]
    omega
  · by_cases hz : totalLength % pieceLength = 0
    · simp only [hz, if_true, reduceIte]
      obtain ⟨q, hq⟩ := Nat.dvd_of_mod_eq_zero hz
      have hq1 : 1 ≤ q := by
        rcases Nat.eq_zero_or_pos q with h | h
        · subst h
          simp at hq
          omega
        · exact h
      have : totalLength - 1 = pieceLength * (q - 1) + (pieceLength - 1) := by
        rw [hq]
        cases q with
        | zero => omega
        | succ q' =>
          simp [Nat.mul_succ]
          omega
      rw [this, Nat.mul_add_mod, Nat.mod_eq_of_lt (by omega)]
      omega
    · simp only [hz, if_false, reduceIte]
      have hdm := Nat.div_add_mod totalLength pieceLength
      set r := totalLength % pieceLength with hr
      have hrlt : r < pieceLength := Nat.mod_lt _ (by omega)
      have hrpos : 1 ≤ r := by omega
      have : totalLength - 1 = pieceLength * (totalLength / pieceLength) + (r - 1) := by
        omega
      rw [this, Nat.mul_add_mod, Nat.mod_eq_of_lt (by omega)]
      omega

/-- C6: for `total_length ≥ 1` and `piece_length ≥ 1`, the buffer a
session allocates on claiming piece `i` has length `piece_length` for
every piece except the last, and `((total_length - 1) mod
piece_length) + 1` for the last piece; the resume scan hashes each
piece over exactly the same lengths. -/
theorem C6_piece_lengths (totalLength pieceLength pieceCount i : Nat)
    (htot : 1 ≤ totalLength) (hpl : 1 ≤ pieceLength) :
    claimBufLen totalLength pieceLength pieceCount i
        = specNaturalLen totalLength pieceLength pieceCount i ∧
      scanPieceLen totalLength pieceLength pieceCount i
        = specNaturalLen totalLength pieceLength pieceCount i ∧
      (i ≠ pieceCount - 1 → claimBufLen totalLength pieceLength pieceCount i = pieceLength) := by
  have hkey : claimBufLen totalLength pieceLength pieceCount i
      = specNaturalLen totalLength pieceLength pieceCount i := by
    unfold claimBufLen specNaturalLen
    by_cases hi : i = pieceCount - 1
    · simp only [hi, if_true, reduceIte]
      exact lastLen_eq totalLength pieceLength htot hpl
    · simp [hi]
  refine ⟨hkey, hkey, ?_⟩
  intro hi
  unfold claimBufLen
  simp [hi]

/-- Witness for C6: an 11-byte torrent with 4-byte pieces (3 pieces,
last of length 3), checked at the last piece. -/
theorem C6_piece_lengths_witness :
    1 ≤ 11 ∧ 1 ≤ 4 ∧
      (claimBufLen 11 4 3 2 = specNaturalLen 11 4 3 2 ∧
        scanPieceLen 11 4 3 2 = specNaturalLen 11 4 3 2 ∧
        (2 ≠ 3 - 1 → claimBufLen 11 4 3 2 = 4)) :=
  ⟨by decide, by decide, C6_piece_lengths 11 4 3 2 (by decide) (by decide)⟩

/-! # Token-bucket rate limiter (src/tds_core/src/rate_limit.rs)

`f64` token arithmetic is modelled over `ℚ`; wall-clock instants are
`ℚ` timestamps passed explicitly to `consume` (the Rust code reads
`Instant::now()` there). -/

structure TokenBucket where
  capacity : ℚ
  tokens : ℚ
  refillRate : ℚ
  lastRefill : ℚ

/-- `TokenBucket::new`: starts full, stamped with the creation time. -/
def TokenBucket.new (capacity refillRate now : ℚ) : TokenBucket :=
  { capacity := capacity, tokens := capacity, refillRate := refillRate, lastRefill := now }

/-- `TokenBucket::refill`: add `elapsed * refill_rate` clamped to
capacity, and advance `last_refill`, but only when the refill amount is
strictly positive. -/
def TokenBucket.refill (b : TokenBucket) (now : ℚ) : TokenBucket :=
  if 0 < (now - b.lastRefill) * b.refillRate then
    { capacity := b.capacity,
      tokens := min (b.tokens + (now - b.lastRefill) * b.refillRate) b.capacity,
      refillRate := b.refillRate,
      lastRefill := now }
  else b

/-- `TokenBucket::consume`: refill, then subtract and succeed iff
enough tokens are available.  No internal sleeping. -/
def TokenBucket.consume (b : TokenBucket) (now amount : ℚ) : TokenBucket × Bool :=
  let b2 := b.refill now
  if amount ≤ b2.tokens then
    ({ capacity := b2.capacity, tokens := b2.tokens - amount,
       refillRate := b2.refillRate, lastRefill := b2.lastRefill }, true)
  else (b2, false)

/-- A sequence of `consume` calls, each a `(timestamp, amount)` pair;
returns the final bucket and the sum of successfully consumed amounts. -/
def runConsume (b : TokenBucket) : List (ℚ × ℚ) → TokenBucket × ℚ
  | [] => (b, 0)
  | (now, amount) :: calls =>
    let step := b.consume now amount
    let rest := runConsume step.1 calls
    (rest.1, (if step.2 then amount else 0) + rest.2)

/-- Well-formed call sequence within the real-time window `[t0, T]`:
timestamps are nondecreasing and amounts nonnegative. -/
def callsOk (t0 T : ℚ) : List (ℚ × ℚ) → Prop
  | [] => True
  | (now, amount) :: calls => t0 ≤ now ∧ now ≤ T ∧ 0 ≤ amount ∧ callsOk now T calls

theorem refill_facts (b : TokenBucket) (now T : ℚ)
    (h1 : b.lastRefill ≤ now) (h2 : now ≤ T)
    (hcap : b.tokens ≤ b.capacity) (hrate : 0 ≤ b.refillRate) (htok : 0 ≤ b.tokens) :
    (b.refill now).tokens + (b.refill now).refillRate * (T - (b.refill now).lastRefill)
        ≤ b.tokens + b.refillRate * (T - b.lastRefill) ∧
      (b.refill now).tokens ≤ b.capacity ∧
      0 ≤ (b.refill now).tokens ∧
      (b.refill now).lastRefill ≤ T ∧
      (b.refill now).capacity = b.capacity ∧
      (b.refill now).refillRate = b.refillRate := by
  unfold TokenBucket.refill
  by_cases htr : 0 < (now - b.lastRefill) * b.refillRate
  · simp only [htr, if_true, reduceIte]
    refine ⟨?_, ?_, ?_, h2, by trivial, by trivial⟩
    · have hmin : min (b.tokens + (now - b.lastRefill) * b.refillRate) b.capacity
          ≤ b.tokens + (now - b.lastRefill) * b.refillRate := min_le_left _ _
      nlinarith
    · exact min_le_right _ _
    · have : 0 ≤ b.tokens + (now - b.lastRefill) * b.refillRate := by nlinarith
      have hc : (0:ℚ) ≤ b.capacity := le_trans htok hcap
      exact le_min this hc
  · simp only [htr, if_false, reduceIte]
    refine ⟨?_, hcap, htok, le_trans h1 h2, by trivial, by trivial⟩
    nlinarith

theorem runConsume_invariant (calls : List (ℚ × ℚ)) :
    ∀ (b : TokenBucket) (T : ℚ), callsOk b.lastRefill T calls →
      b.tokens ≤ b.capacity → 0 ≤ b.tokens → 0 ≤ b.refillRate → b.lastRefill ≤ T →
      (runConsume b calls).2 + (runConsume b calls).1.tokens
          ≤ b.tokens + b.refillRate * (T - b.lastRefill) ∧
        0 ≤ (runConsume b calls).1.tokens := by
  induction calls with
  | nil =>
    intro b T _ _ htok hrate hT
    simp only [runConsume]
    constructor
    · nlinarith
    · exact htok
  | cons call calls ih =>
    obtain ⟨now, amount⟩ := call
    intro b T hok hcap htok hrate hT
    obtain ⟨hnow1, hnow2, hamt, hok'⟩ := hok
    obtain ⟨hphi, hcap2, htok2, hlast2, hcapeq, hrateeq⟩ :=
      refill_facts b now T hnow1 hnow2 hcap hrate htok
    simp only [runConsume, TokenBucket.consume]
    by_cases hsucc : amount ≤ (b.refill now).tokens
    · simp only [hsucc, if_true, reduceIte]
      have hok2 : callsOk (b.refill now).lastRefill T calls := by
        have hle : (b.refill now).lastRefill ≤ now := by
          unfold TokenBucket.refill
          by_cases htr : 0 < (now - b.lastRefill) * b.refillRate
          · simp [htr]
          · simp [htr]
            exact hnow1
        revert hok'
        cases calls with
        | nil => intro; trivial
        | cons c cs =>
          obtain ⟨cn, ca⟩ := c
          intro h
          exact ⟨le_trans hle h.1, h.2.1, h.2.2⟩
      have ihres := ih
        { capacity := (b.refill now).capacity, tokens := (b.refill now).tokens - amount,
          refillRate := (b.refill now).refillRate, lastRefill := (b.refill now).lastRefill }
        T hok2 (by simp [hcapeq]; linarith) (by simp; linarith) (by simp [hrateeq]; exact hrate)
        (by simp; exact hlast2)
      simp only at ihres
      refine ⟨?_, ihres.2⟩
      have := ihres.1
      rw [hrateeq] at this
      linarith
    · simp only [hsucc, if_false, reduceIte]
      have hok2 : callsOk (b.refill now).lastRefill T calls := by
        have hle : (b.refill now).lastRefill ≤ now := by
          unfold TokenBucket.refill
          by_cases htr : 0 < (now - b.lastRefill) * b.refillRate
          · simp [htr]
          · simp [htr]
            exact hnow1
        revert hok'
        cases calls with
        | nil => intro; trivial
        | cons c cs =>
          obtain ⟨cn, ca⟩ := c
          intro h
          exact ⟨le_trans hle h.1, h.2.1, h.2.2⟩
      have ihres := ih (b.refill now) T hok2 (by rw [hcapeq]; exact hcap2) htok2
        (by rw [hrateeq]; exact hrate) hlast2
      refine ⟨?_, ihres.2⟩
      have := ihres.1
      rw [hrateeq] at this
      norm_num
      linarith

/-- C3: the token bucket starts with `tokens = capacity`; `consume n`
first adds `elapsed * refill_rate` tokens clamped to capacity and then
succeeds iff the refilled balance is at least `n`; over any
well-formed call sequence inside a real-time window of length `dt` the
sum of successfully consumed amounts is at most
`capacity + refill_rate * dt`; and on a fresh default bucket
(capacity = refill_rate = 2000000), `consume 2000000` succeeds, an
immediate `consume 1` fails, and a `consume 1000000` at least 1/2
second later succeeds. -/
theorem C3_rate_limiter :
    (∀ capacity refillRate t0 : ℚ, (TokenBucket.new capacity refillRate t0).tokens = capacity) ∧
    (∀ (b : TokenBucket) (now n : ℚ), b.lastRefill ≤ now → b.tokens ≤ b.capacity →
      0 ≤ b.refillRate →
      ((b.consume now n).2 = true ↔
        n ≤ min (b.tokens + (now - b.lastRefill) * b.refillRate) b.capacity)) ∧
    (∀ (capacity refillRate t0 dt : ℚ) (calls : List (ℚ × ℚ)),
      0 ≤ capacity → 0 ≤ refillRate → 0 ≤ dt → callsOk t0 (t0 + dt) calls →
      (runConsume (TokenBucket.new capacity refillRate t0) calls).2
        ≤ capacity + refillRate * dt) ∧
    (∀ t0 d : ℚ, 1 / 2 ≤ d →
      ((TokenBucket.new 2000000 2000000 t0).consume t0 2000000).2 = true ∧
      (((TokenBucket.new 2000000 2000000 t0).consume t0 2000000).1.consume t0 1).2 = false ∧
      ((((TokenBucket.new 2000000 2000000 t0).consume t0 2000000).1.consume t0 1).1.consume
          (t0 + d) 1000000).2 = true) := by
  refine ⟨fun _ _ _ => rfl, ?_, ?_, ?_⟩
  · intro b now n hnow hcap hrate
    have hb2 : (b.refill now).tokens
        = min (b.tokens + (now - b.lastRefill) * b.refillRate) b.capacity := by
      unfold TokenBucket.refill
      by_cases htr : 0 < (now - b.lastRefill) * b.refillRate
      · simp [htr]
      · simp only [htr, if_false, reduceIte]
        have hx0 : (now - b.lastRefill) * b.refillRate = 0 := by nlinarith
        rw [hx0, add_zero]
        exact (min_eq_left hcap).symm
    unfold TokenBucket.consume
    by_cases hsucc : n ≤ (b.refill now).tokens
    · simp only [hsucc, if_true, reduceIte]
      rw [← hb2]
      simp [hsucc]
    · simp only [hsucc, if_false, reduceIte]
      rw [← hb2]
      simp [hsucc]
  · intro capacity refillRate t0 dt calls hcap hrate hdt hok
    have hinv := runConsume_invariant calls (TokenBucket.new capacity refillRate t0)
      (t0 + dt) hok (le_refl _) hcap hrate (by simp [TokenBucket.new]; linarith)
    have h1 := hinv.1
    have h2 := hinv.2
    have ht : (TokenBucket.new capacity refillRate t0).tokens = capacity := rfl
    have hr : (TokenBucket.new capacity refillRate t0).refillRate = refillRate := rfl
    have hl : (TokenBucket.new capacity refillRate t0).lastRefill = t0 := rfl
    rw [ht, hr, hl] at h1
    have hdd : t0 + dt - t0 = dt := by ring
    rw [hdd] at h1
    linarith
  · intro t0 d hd
    have h1 : (TokenBucket.new 2000000 2000000 t0).consume t0 2000000
        = (TokenBucket.mk 2000000 0 2000000 t0, true) := by
      unfold TokenBucket.new TokenBucket.consume TokenBucket.refill
      norm_num
    have h2 : (TokenBucket.mk 2000000 0 2000000 t0).consume t0 1
        = (TokenBucket.mk 2000000 0 2000000 t0, false) := by
      unfold TokenBucket.consume TokenBucket.refill
      norm_num
    have hd1 : (0:ℚ) < (t0 + d - t0) * 2000000 := by nlinarith
    have hcond : (1000000:ℚ) ≤ min (0 + (t0 + d - t0) * 2000000) 2000000 := by
      refine le_min (by nlinarith) (by norm_num)
    have h3 : ((TokenBucket.mk 2000000 0 2000000 t0).consume (t0 + d) 1000000).2 = true := by
      unfold TokenBucket.consume TokenBucket.refill
      simp only
      rw [if_pos hd1]
      simp only
      rw [if_pos hcond]
    exact ⟨by rw [h1], by rw [h1, h2], by rw [h1, h2]; exact h3⟩

/-- Witness for C3: a two-call sequence on a small bucket, and the
concrete S7 scenario at `t0 = 0`, `d = 1`. -/
theorem C3_rate_limiter_witness :
    ((0:ℚ) ≤ 2 ∧ (0:ℚ) ≤ 1 ∧ (0:ℚ) ≤ 1 ∧ callsOk 0 (0 + 1) [((0:ℚ), (2:ℚ))]) ∧
    (runConsume (TokenBucket.new 2 1 0) [((0:ℚ), (2:ℚ))]).2 ≤ 2 + 1 * 1 ∧
    ((1:ℚ) / 2 ≤ 1 ∧
      ((TokenBucket.new 2000000 2000000 0).consume 0 2000000).2 = true ∧
      (((TokenBucket.new 2000000 2000000 0).consume 0 2000000).1.consume 0 1).2 = false ∧
      ((((TokenBucket.new 2000000 2000000 0).consume 0 2000000).1.consume 0 1).1.consume
          (0 + 1) 1000000).2 = true) := by
  have hok : callsOk 0 (0 + 1) [((0:ℚ), (2:ℚ))] := by
    refine ⟨le_refl 0, by norm_num, by norm_num, trivial⟩
  refine ⟨⟨by norm_num, by norm_num, by norm_num, hok⟩, ?_, ?_⟩
  · exact C3_rate_limiter.2.2.1 2 1 0 1 [((0:ℚ), (2:ℚ))] (by norm_num) (by norm_num)
      (by norm_num) hok
  · refine ⟨by norm_num, C3_rate_limiter.2.2.2 0 1 (by norm_num)⟩

/-! # Piece state and downloaded-bytes accounting
(src/client/src/downloader/state.rs, init.rs, manager.rs)

The shared `piece_status` vector and `downloaded_bytes` counter are
modelled as a state, and every code path that mutates them as a
transition: the resume scan marks a piece `Have` and adds its natural
length; a session claims a `Missing` piece (`InProgress`, counter
untouched); a failure releases an `InProgress` piece back to `Missing`;
a verified piece write flips `InProgress` to `Have` and adds the
buffer's length, which is the piece's natural length (`claimBufLen`). -/

inductive PieceStatus where
  | Missing | InProgress | Have
deriving DecidableEq, Repr

structure DlState where
  statuses : List PieceStatus
  downloaded : Nat

/-- State after `from_torrent`: every piece `Missing`, zero bytes. -/
def dlInit (pieceCount : Nat) : DlState :=
  { statuses := List.replicate pieceCount .Missing, downloaded := 0 }

/-- One mutation of the shared piece state, from the four code paths. -/
inductive DlStep (tl pl : Nat) : DlState → DlState → Prop
  | claim (s : DlState) (i : Nat) (h : s.statuses[i]? = some .Missing) :
      DlStep tl pl s ⟨s.statuses.set i .InProgress, s.downloaded⟩
  | release (s : DlState) (i : Nat) (h : s.statuses[i]? = some .InProgress) :
      DlStep tl pl s ⟨s.statuses.set i .Missing, s.downloaded⟩
  | complete (s : DlState) (i : Nat) (h : s.statuses[i]? = some .InProgress) :
      DlStep tl pl s ⟨s.statuses.set i .Have,
        s.downloaded + claimBufLen tl pl s.statuses.length i⟩
  | scan (s : DlState) (i : Nat) (h : s.statuses[i]? = some .Missing) :
      DlStep tl pl s ⟨s.statuses.set i .Have,
        s.downloaded + scanPieceLen tl pl s.statuses.length i⟩

/-- Sum of natural lengths over the pieces whose status is `Have`. -/
def sumHave (tl pl : Nat) (sts : List PieceStatus) : Nat :=
  ∑ i ∈ Finset.range sts.length,
    if sts[i]? = some .Have then claimBufLen tl pl sts.length i else 0

theorem sumHave_init (tl pl n : Nat) : sumHave tl pl (List.replicate n .Missing) = 0 := by
  unfold sumHave
  refine Finset.sum_eq_zero ?_
  intro i hi
  rw [Finset.mem_range] at hi
  rw [List.getElem?_replicate]
  simp [hi]

theorem sumHave_set_toHave (tl pl : Nat) (sts : List PieceStatus) (i : Nat)
    (hi : i < sts.length) (hold : sts[i]? ≠ some .Have) :
    sumHave tl pl (sts.set i .Have) = sumHave tl pl sts + claimBufLen tl pl sts.length i := by
  unfold sumHave
  rw [List.length_set]
  have hmem : i ∈ Finset.range sts.length := Finset.mem_range.mpr hi
  rw [← Finset.sum_erase_add _ _ hmem, ← Finset.sum_erase_add _ _ hmem]
  have hcongr : ∀ j ∈ (Finset.range sts.length).erase i,
      (if (sts.set i .Have)[j]? = some .Have then claimBufLen tl pl sts.length j else 0)
        = (if sts[j]? = some .Have then claimBufLen tl pl sts.length j else 0) := by
    intro j hj
    have hne : j ≠ i := Finset.ne_of_mem_erase hj
    rw [List.getElem?_set_ne (fun hEq => hne hEq.symm)]
  rw [Finset.sum_congr rfl hcongr]
  have hat : (sts.set i .Have)[i]? = some .Have := List.getElem?_set_eq_of_lt _ hi
  rw [hat]
  have hat2 : (if sts[i]? = some PieceStatus.Have then claimBufLen tl pl sts.length i else 0)
      = 0 := by
    rw [if_neg hold]
  rw [hat2]
  simp

theorem sumHave_set_nonHave (tl pl : Nat) (sts : List PieceStatus) (i : Nat)
    (x : PieceStatus) (hx : x ≠ .Have) (hold : sts[i]? ≠ some .Have) :
    sumHave tl pl (sts.set i x) = sumHave tl pl sts := by
  unfold sumHave
  rw [List.length_set]
  refine Finset.sum_congr rfl ?_
  intro j hj
  by_cases hij : i = j
  · subst hij
    rw [Finset.mem_range] at hj
    rw [List.getElem?_set_eq_of_lt _ hj]
    rw [if_neg hold, if_neg (by simp [hx])]
  · rw [List.getElem?_set_ne hij]

theorem getElem?_some_lt {sts : List PieceStatus} {i : Nat} {v : PieceStatus}
    (h : sts[i]? = some v) : i < sts.length := by
  by_contra hge
  rw [List.getElem?_eq_none (by omega)] at h
  exact absurd h (by simp)

/-- C2: at every state reachable from initialization by any
interleaving of resume-scan marks and session claim / release /
complete transitions, the `downloaded_bytes` counter equals the sum of
natural piece lengths over the pieces whose status is `Have`. -/
theorem C2_downloaded_invariant (tl pl n : Nat) (s : DlState)
    (h : Relation.ReflTransGen (DlStep tl pl) (dlInit n) s) :
    s.downloaded = sumHave tl pl s.statuses := by
  induction h with
  | refl => simp [dlInit, sumHave_init]
  | tail hreach hstep ih =>
    cases hstep with
    | claim i hi =>
      rename_i s
      have hlt := getElem?_some_lt hi
      simp only
      rw [sumHave_set_nonHave tl pl s.statuses i .InProgress (by simp) (by rw [hi]; simp)]
      exact ih
    | release i hi =>
      rename_i s
      have hlt := getElem?_some_lt hi
      simp only
      rw [sumHave_set_nonHave tl pl s.statuses i .Missing (by simp) (by rw [hi]; simp)]
      exact ih
    | complete i hi =>
      rename_i s
      have hlt := getElem?_some_lt hi
      simp only
      rw [sumHave_set_toHave tl pl s.statuses i hlt (by rw [hi]; simp)]
      omega
    | scan i hi =>
      rename_i s
      have hlt := getElem?_some_lt hi
      simp only
      rw [sumHave_set_toHave tl pl s.statuses i hlt (by rw [hi]; simp)]
      have hlen : scanPieceLen tl pl s.statuses.length i
          = claimBufLen tl pl s.statuses.length i := rfl
      omega

/-- Witness for C2: a 10-byte, two-piece (6+4) torrent after a resume
scan of piece 0 followed by claiming and completing piece 1. -/
theorem C2_downloaded_invariant_witness :
    (DlState.mk (((List.replicate 2 PieceStatus.Missing).set 0 .Have).set 1 .Have)
        (0 + scanPieceLen 10 6 2 0 + claimBufLen 10 6 2 1)).downloaded
      = sumHave 10 6 (((List.replicate 2 PieceStatus.Missing).set 0 .Have).set 1 .Have) := by
  have h0 : DlStep 10 6 (dlInit 2)
      ⟨(dlInit 2).statuses.set 0 .Have,
        (dlInit 2).downloaded + scanPieceLen 10 6 (dlInit 2).statuses.length 0⟩ :=
    DlStep.scan (dlInit 2) 0 (by decide)
  have h1 : DlStep 10 6
      (⟨(dlInit 2).statuses.set 0 .Have,
        (dlInit 2).downloaded + scanPieceLen 10 6 (dlInit 2).statuses.length 0⟩ : DlState)
      ⟨((dlInit 2).statuses.set 0 .Have).set 1 .InProgress,
        (dlInit 2).downloaded + scanPieceLen 10 6 (dlInit 2).statuses.length 0⟩ :=
    DlStep.claim _ 1 (by decide)
  have h2 : DlStep 10 6
      (⟨((dlInit 2).statuses.set 0 .Have).set 1 .InProgress,
        (dlInit 2).downloaded + scanPieceLen 10 6 (dlInit 2).statuses.length 0⟩ : DlState)
      ⟨(((dlInit 2).statuses.set 0 .Have).set 1 .InProgress).set 1 .Have,
        (dlInit 2).downloaded + scanPieceLen 10 6 (dlInit 2).statuses.length 0
          + claimBufLen 10 6 (((dlInit 2).statuses.set 0 .Have).set 1 .InProgress).length 1⟩ :=
    DlStep.complete _ 1 (by decide)
  have hreach := Relation.ReflTransGen.tail
    (Relation.ReflTransGen.tail (Relation.ReflTransGen.tail Relation.ReflTransGen.refl h0) h1) h2
  have := C2_downloaded_invariant 10 6 2 _ hreach
  simpa using this

/-! # Inbound Request handling (src/client/src/downloader/manager.rs)

The `Message::Request` arm of the session loop: requests longer than
`128 * 1024` bytes are dropped before anything is touched; otherwise,
if the requested piece is `Have`, the handler blocks on the upload
token bucket (retrying after 100 ms sleeps), reads the block, sends a
`Piece` message and adds the length to `uploaded_bytes`.  The retry
loop is modelled by the list of wall-clock instants at which `consume`
is attempted. -/

/-- `status.get(index).map(|&s| s == Have).unwrap_or(false)`. -/
def statusIsHave (statuses : List PieceStatus) (index : Nat) : Bool :=
  match statuses[index]? with
  | some s => s == .Have
  | none => false

/-- The `while !bucket.consume(length)` loop, at the given attempt
instants; an empty list models a loop still blocked in its sleep. -/
def consumeUntil (b : TokenBucket) (amount : ℚ) : List ℚ → TokenBucket × Bool
  | [] => (b, false)
  | t :: ts =>
    let r := b.consume t amount
    if r.2 then (r.1, true) else consumeUntil r.1 amount ts

/-- Result of one inbound `Request`: whether a `Piece` message was
sent, plus the shared state afterwards. -/
structure ReqEffect where
  sentPiece : Bool
  uploadedAfter : Nat
  statusesAfter : List PieceStatus
  bucketAfter : TokenBucket

/-- The `Message::Request { index, begin, length }` arm. -/
def handleRequest (statuses : List PieceStatus) (uploaded : Nat) (bucket : TokenBucket)
    (index length : Nat) (attempts : List ℚ) : ReqEffect :=
  if length > 128 * 1024 then
    ⟨false, uploaded, statuses, bucket⟩
  else if statusIsHave statuses index then
    let r := consumeUntil bucket (length : ℚ) attempts
    if r.2 then ⟨true, uploaded + length, statuses, r.1⟩
    else ⟨false, uploaded, statuses, r.1⟩
  else ⟨false, uploaded, statuses, bucket⟩

/-- On the default upload bucket an attempt after a 100 ms sleep always
finds at least `0.1 * 2_000_000 = 200_000` tokens, enough for any
admissible request; so the retry loop sends within two attempts. -/
theorem consumeUntil_default_two (b : TokenBucket) (amount t1 t2 : ℚ)
    (hcap : b.capacity = 2000000) (hrate : b.refillRate = 2000000)
    (htok0 : 0 ≤ b.tokens) (htokc : b.tokens ≤ b.capacity)
    (hlast : b.lastRefill ≤ t1) (ht12 : t1 + 1 / 10 ≤ t2)
    (hamt0 : 0 ≤ amount) (hamt : amount ≤ 200000) :
    (consumeUntil b amount [t1, t2]).2 = true := by
  unfold consumeUntil
  by_cases h1 : (b.consume t1 amount).2 = true
  · simp [h1]
  · simp only [h1, if_false, Bool.false_eq_true, reduceIte]
    have hfail : (b.consume t1 amount).1 = b.refill t1 := by
      unfold TokenBucket.consume at h1 ⊢
      by_cases hs : amount ≤ (b.refill t1).tokens
      · simp [hs] at h1
      · simp [hs]
    obtain ⟨_, hc2, ht2, hl2, hce, hre⟩ :=
      refill_facts b t1 t1 hlast (le_refl t1) htokc (by rw [hrate]; norm_num) htok0
    rw [hfail]
    unfold consumeUntil
    set b1 := b.refill t1 with hb1
    have helap : 1 / 10 ≤ t2 - b1.lastRefill := by
      have := hl2
      linarith
    have hx : (200000:ℚ) ≤ (t2 - b1.lastRefill) * b1.refillRate := by
      rw [hre, hrate]
      nlinarith
    have hxpos : 0 < (t2 - b1.lastRefill) * b1.refillRate := by linarith
    have hsucc2 : amount ≤ (b1.refill t2).tokens := by
      unfold TokenBucket.refill
      rw [if_pos hxpos]
      simp only
      refine le_min ?_ ?_
      · linarith
      · rw [hce, hcap]
        linarith
    unfold TokenBucket.consume
    simp [hsucc2]

/-- C7: an inbound `Request` of length exactly `131072` for a piece we
`Have` is honored — a `Piece` message is sent and `uploaded_bytes`
grows by the length (piece states untouched) — while a `Request` of
length `131073` or more is dropped with the upload counter, the piece
states, and the rate-limiter state all unchanged. -/
theorem C7_request_length_gate (statuses : List PieceStatus) (uploaded : Nat)
    (b : TokenBucket) (index : Nat) (t1 t2 : ℚ)
    (hidx : statuses[index]? = some .Have)
    (hcap : b.capacity = 2000000) (hrate : b.refillRate = 2000000)
    (htok0 : 0 ≤ b.tokens) (htokc : b.tokens ≤ b.capacity)
    (hlast : b.lastRefill ≤ t1) (ht12 : t1 + 1 / 10 ≤ t2) :
    ((handleRequest statuses uploaded b index 131072 [t1, t2]).sentPiece = true ∧
      (handleRequest statuses uploaded b index 131072 [t1, t2]).uploadedAfter
        = uploaded + 131072 ∧
      (handleRequest statuses uploaded b index 131072 [t1, t2]).statusesAfter = statuses) ∧
    (∀ length : Nat, 131073 ≤ length → ∀ attempts : List ℚ,
      handleRequest statuses uploaded b index length attempts
        = ⟨false, uploaded, statuses, b⟩) := by
  constructor
  · have hhave : statusIsHave statuses index = true := by
      unfold statusIsHave
      rw [hidx]
      rfl
    have hsend : (consumeUntil b ((131072:Nat) : ℚ) [t1, t2]).2 = true := by
      refine consumeUntil_default_two b _ t1 t2 hcap hrate htok0 htokc hlast ht12 ?_ ?_
      · norm_num
      · norm_num
    unfold handleRequest
    rw [if_neg (by norm_num)]
    rw [if_pos hhave]
    simp only [hsend, if_true, reduceIte]
    exact ⟨trivial, trivial, trivial⟩
  · intro length hlen attempts
    unfold handleRequest
    rw [if_pos (by omega)]

/-- Witness for C7 at a fresh default bucket and a one-piece state. -/
theorem C7_request_length_gate_witness :
    ([PieceStatus.Have][0]? = some PieceStatus.Have) ∧
    (((handleRequest [PieceStatus.Have] 0 (TokenBucket.new 2000000 2000000 0) 0
          131072 [0, 1]).sentPiece = true ∧
        (handleRequest [PieceStatus.Have] 0 (TokenBucket.new 2000000 2000000 0) 0
          131072 [0, 1]).uploadedAfter = 0 + 131072 ∧
        (handleRequest [PieceStatus.Have] 0 (TokenBucket.new 2000000 2000000 0) 0
          131072 [0, 1]).statusesAfter = [PieceStatus.Have]) ∧
      (∀ length : Nat, 131073 ≤ length → ∀ attempts : List ℚ,
        handleRequest [PieceStatus.Have] 0 (TokenBucket.new 2000000 2000000 0) 0
            length attempts
          = ⟨false, 0, [PieceStatus.Have], TokenBucket.new 2000000 2000000 0⟩)) :=
  ⟨by decide,
    C7_request_length_gate [PieceStatus.Have] 0 (TokenBucket.new 2000000 2000000 0) 0 0 1
      (by decide) rfl rfl (by norm_num [TokenBucket.new]) (by norm_num [TokenBucket.new])
      (by norm_num [TokenBucket.new]) (by norm_num)⟩

/-! # SHA-1 (the `sha1` crate, FIPS 180-1)

A byte-level SHA-1 over `Nat`, with 32-bit words kept reduced modulo
`2 ^ 32`.  The models below only ever compare digests of equal inputs,
so the function is used definitionally. -/

/-- Left-rotate a 32-bit word by `k`. -/
def rotl32 (k x : Nat) : Nat := ((x <<< k) ||| (x >>> (32 - k))) % 2 ^ 32

/-- Big-endian 32-bit word from four bytes. -/
def beWord (a b c d : Nat) : Nat := ((a * 256 + b) * 256 + c) * 256 + d

/-- Big-endian bytes of a 32-bit word. -/
def beBytes4 (n : Nat) : List Nat :=
  [n / 2 ^ 24 % 256, n / 2 ^ 16 % 256, n / 2 ^ 8 % 256, n % 256]

/-- Big-endian bytes of a 64-bit length field. -/
def beBytes8 (n : Nat) : List Nat :=
  [n / 2 ^ 56 % 256, n / 2 ^ 48 % 256, n / 2 ^ 40 % 256, n / 2 ^ 32 % 256,
   n / 2 ^ 24 % 256, n / 2 ^ 16 % 256, n / 2 ^ 8 % 256, n % 256]

/-- Merkle–Damgård padding: `0x80`, zeros to 56 mod 64, then the
64-bit big-endian bit length. -/
def sha1Pad (msg : List Nat) : List Nat :=
  msg ++ 128 :: List.replicate ((119 - msg.length % 64) % 64) 0
    ++ beBytes8 (msg.length * 8)

/-- Split into 64-byte blocks (the fuel is the list length). -/
def chunk64 : Nat → List Nat → List (List Nat)
  | 0, _ => []
  | _ + 1, [] => []
  | fuel + 1, l => l.take 64 :: chunk64 fuel (l.drop 64)

/-- Big-endian 32-bit words of a 64-byte block. -/
def toWords : List Nat → List Nat
  | a :: b :: c :: d :: rest => beWord a b c d :: toWords rest
  | _ => []

/-- One message-schedule extension step: append
`rotl1(w[i-3] ^ w[i-8] ^ w[i-14] ^ w[i-16])`. -/
def sha1ExtendStep (w : List Nat) : List Nat :=
  let i := w.length
  w ++ [rotl32 1 (((w.getD (i - 3) 0 ^^^ w.getD (i - 8) 0) ^^^ w.getD (i - 14) 0)
    ^^^ w.getD (i - 16) 0)]

/-- Extend the 16-word schedule by `k` further words. -/
def sha1Extend : Nat → List Nat → List Nat
  | 0, w => w
  | k + 1, w => sha1Extend k (sha1ExtendStep w)

/-- The round function `f_t`. -/
def sha1F (t b c d : Nat) : Nat :=
  if t < 20 then (b &&& c) ||| ((b ^^^ 0xFFFFFFFF) &&& d)
  else if t < 40 then (b ^^^ c) ^^^ d
  else if t < 60 then ((b &&& c) ||| (b &&& d)) ||| (c &&& d)
  else (b ^^^ c) ^^^ d

/-- The round constant `K_t`. -/
def sha1K (t : Nat) : Nat :=
  if t < 20 then 0x5A827999
  else if t < 40 then 0x6ED9EBA1
  else if t < 60 then 0x8F1BBCDC
  else 0xCA62C1D6

/-- The 80 compression rounds over the enumerated schedule. -/
def sha1Rounds : List (Nat × Nat) → Nat × Nat × Nat × Nat × Nat → Nat × Nat × Nat × Nat × Nat
  | [], st => st
  | (t, wt) :: rest, (a, b, c, d, e) =>
    sha1Rounds rest
      ((rotl32 5 a + sha1F t b c d + e + wt + sha1K t) % 2 ^ 32, a, rotl32 30 b, c, d)

/-- Process the blocks, carrying the five-word state. -/
def sha1Blocks : List (List Nat) → Nat × Nat × Nat × Nat × Nat → Nat × Nat × Nat × Nat × Nat
  | [], h => h
  | blk :: rest, (h0, h1, h2, h3, h4) =>
    let w := sha1Extend 64 (toWords blk)
    let r := sha1Rounds w.enum (h0, h1, h2, h3, h4)
    sha1Blocks rest
      ((h0 + r.1) % 2 ^ 32, (h1 + r.2.1) % 2 ^ 32, (h2 + r.2.2.1) % 2 ^ 32,
       (h3 + r.2.2.2.1) % 2 ^ 32, (h4 + r.2.2.2.2) % 2 ^ 32)

/-- SHA-1 digest (20 bytes) of a byte string. -/
def sha1Bytes (msg : List Nat) : List Nat :=
  let padded := sha1Pad msg
  let h := sha1Blocks (chunk64 padded.length padded)
    (0x67452301, 0xEFCDAB89, 0x98BADCFE, 0x10325476, 0xC3D2E1F0)
  beBytes4 h.1 ++ beBytes4 h.2.1 ++ beBytes4 h.2.2.1 ++ beBytes4 h.2.2.2.1
    ++ beBytes4 h.2.2.2.2

/-! # Resume scan and completion detection
(src/client/src/downloader/init.rs `check_existing_data`,
src/client/src/downloader/manager.rs `run`) -/

/-- One iteration of the `check_existing_data` loop: hash the
piece-aligned range and, on a match, mark `Have` and bump
`downloaded_bytes` by the piece's natural length. -/
def scanStep (pieces : List (List Nat)) (totalLength pieceLength pieceCount : Nat)
    (fileBytes : List Nat) (st : DlState) (i : Nat) : DlState :=
  let len := scanPieceLen totalLength pieceLength pieceCount i
  let offset := i * pieceLength
  if offset + len ≤ fileBytes.length then
    if pieces[i]? = some (sha1Bytes ((fileBytes.drop offset).take len)) then
      ⟨st.statuses.set i .Have, st.downloaded + len⟩
    else st
  else st

/-- `from_torrent` initialization followed by the `check_existing_data`
resume scan, as a pure function of the on-disk bytes. -/
def checkExistingData (pieces : List (List Nat)) (totalLength pieceLength : Nat)
    (fileBytes : List Nat) : DlState :=
  (List.range pieces.length).foldl
    (scanStep pieces totalLength pieceLength pieces.length fileBytes)
    (dlInit pieces.length)

/-- Manager-loop state relevant to completion: the piece statuses, the
queue of peer candidates not yet offered, the connected sessions, the
completion broadcast flag, and whether the run loop has finished. -/
structure MgrState where
  statuses : List PieceStatus
  pending : List Nat
  connected : List Nat
  completionSent : Bool
  finished : Bool

/-- Manager state right after initialization and resume scan, with the
peer-address sources delivering the given candidate queue. -/
def mgrInit (statuses : List PieceStatus) (candidates : List Nat) : MgrState :=
  ⟨statuses, candidates, [], false, false⟩

/-- The completion-relevant transitions of `manager::run`: a candidate
is consumed into a session; a connected session observing all pieces
`Have` sends on the completion broadcast (`tx.send(())`, which happens
only inside a session's message loop); the manager's `select!` arm
finishes the run upon receiving the broadcast. -/
inductive MgrStep : MgrState → MgrState → Prop
  | connect (s : MgrState) (a : Nat) (rest : List Nat) (h : s.pending = a :: rest) :
      MgrStep s ⟨s.statuses, rest, a :: s.connected, s.completionSent, s.finished⟩
  | sessionCompletionCheck (s : MgrState) (h : s.connected ≠ [])
      (hall : s.statuses.all (fun st => st == .Have) = true) :
      MgrStep s ⟨s.statuses, s.pending, s.connected, true, s.finished⟩
  | managerFinish (s : MgrState) (h : s.completionSent = true) :
      MgrStep s ⟨s.statuses, s.pending, s.connected, s.completionSent, true⟩

theorem mgr_no_peers_stuck (statuses : List PieceStatus) :
    ∀ s, Relation.ReflTransGen MgrStep (mgrInit statuses []) s →
      s.pending = [] ∧ s.connected = [] ∧ s.completionSent = false ∧ s.finished = false := by
  intro s h
  induction h with
  | refl => exact ⟨rfl, rfl, rfl, rfl⟩
  | tail hreach hstep ih =>
    cases hstep with
    | connect a rest hp =>
      rw [ih.1] at hp
      exact absurd hp (by simp)
    | sessionCompletionCheck hc hall =>
      exact absurd ih.2.1 hc
    | managerFinish hc =>
      rw [ih.2.2.1] at hc
      exact absurd hc (by simp)

/-- C5 (code bug): for the single-piece manifest with
`piece_length = total_length = 10` and a pre-existing output file whose
10 bytes hash to the piece hash, initialization plus the resume scan do
mark piece 0 `Have` and set `downloaded_bytes = 10` — but the download
does **not** then complete: `manager::run` checks all-`Have` only
inside a connected peer session's message loop, so with no peer
candidates the run loop never receives the completion broadcast and
never finishes, contradicting the spec's S1 scenario (and the
`Downloader::run` doc comment "blocks until the download is
complete"). -/
theorem C5_resume_without_peers :
    ((checkExistingData [sha1Bytes (List.replicate 10 65)] 10 10
        (List.replicate 10 65)).statuses = [.Have] ∧
      (checkExistingData [sha1Bytes (List.replicate 10 65)] 10 10
        (List.replicate 10 65)).downloaded = 10) ∧
    (∀ s, Relation.ReflTransGen MgrStep (mgrInit [.Have] []) s → s.finished = false) := by
  constructor
  · have hbuf : ((List.replicate 10 65).drop 0).take (scanPieceLen 10 10 1 0)
        = List.replicate 10 65 := rfl
    have hrange : List.range 1 = [0] := rfl
    have hstep : checkExistingData [sha1Bytes (List.replicate 10 65)] 10 10
        (List.replicate 10 65)
        = scanStep [sha1Bytes (List.replicate 10 65)] 10 10 1 (List.replicate 10 65)
            (dlInit 1) 0 := by
      unfold checkExistingData
      simp only [List.length_singleton, List.range_succ, List.range_zero, List.nil_append,
        List.foldl_cons, List.foldl_nil]
    rw [hstep]
    unfold scanStep
    rw [if_pos (by norm_num [scanPieceLen])]
    rw [if_pos (by rw [hbuf]; rfl)]
    constructor
    · rfl
    · norm_num [scanPieceLen, dlInit]
  · intro s h
    exact (mgr_no_peers_stuck [.Have] s h).2.2.2

/-- Witness for C5's universally quantified part, at the initial
manager state itself. -/
theorem C5_resume_without_peers_witness :
    (mgrInit [PieceStatus.Have] []).finished = false :=
  (C5_resume_without_peers.2 (mgrInit [.Have] []) Relation.ReflTransGen.refl)

/-! # Metadata fetcher (src/client/src/magnet.rs, `attempt_metadata_fetch`)

The post-handshake part of `attempt_metadata_fetch`: requests for
`ceil(metadata_size / 16384)` pieces, the reply-collection loop, and
the final SHA-1 check against the info fingerprint.  A wire reply is
an Extended message `(sub-id, payload)`; a data reply's payload is the
bencoded header `{msg_type, piece}` followed by the raw piece bytes. -/

def msgTypeKey : List Nat := [109, 115, 103, 95, 116, 121, 112, 101]

def pieceKey : List Nat := [112, 105, 101, 99, 101]

/-- `BTreeMap::get` on the decoded dictionary. -/
def dictGet (es : List (List Nat × Bencode)) (k : List Nat) : Option Bencode :=
  (es.find? (fun e => e.1 == k)).map Prod.snd

/-- `num_pieces = (metadata_size + piece_size - 1) / piece_size` over
`u32`: `metadata_size` is `*size as u32`, and the addition and
subtraction wrap modulo `2^32`, so the ceiling overflows for
`metadata_size > 2^32 - 16384` and yields 0 pieces there. -/
def numPieces32 (metadataSize : Nat) : Nat :=
  ((metadataSize + 16 * 1024) % 2 ^ 32 + 2 ^ 32 - 1) % 2 ^ 32 / (16 * 1024)

/-- The `piece` indices requested by the `for i in 0..num_pieces` loop. -/
def metadataRequests (metadataSize : Nat) : List Nat :=
  List.range (numPieces32 metadataSize)

/-- `metadata[start..end].copy_from_slice(&data[0..(end-start)])` with
`end = min(start + data.len(), metadata.len())`. -/
def writeChunk (buf : List Nat) (start : Nat) (data : List Nat) : List Nat :=
  buf.take start
    ++ data.take (min (start + data.length) buf.length - start)
    ++ buf.drop (min (start + data.length) buf.length)

/-- The `piece` value of a reply header, cast `as u32`; `piece_index`
defaults to 0 when the key is absent or not an integer. -/
def metaPieceIndex (d : List (List Nat × Bencode)) : Nat :=
  match dictGet d pieceKey with
  | some (.int idx) => (idx.emod (2 ^ 32)).toNat
  | _ => 0

/-- Handling of one received Extended message inside the download loop:
decode the bencoded header; on `msg_type = 1` place the trailing raw
bytes at `start = (piece_index * piece_size) as usize` — a `u32`
multiply that wraps modulo `2^32` — clamped to the buffer, and count
the reply; a reply whose (wrapped) offset falls outside the buffer is
ignored uncounted; on `msg_type = 2` fail; anything else is ignored.
A decode failure aborts the fetch (`?` in the Rust). -/
def processMetaMsg (utId : Nat) (st : List Nat × Nat) (msg : Nat × List Nat) :
    Except Unit (List Nat × Nat) :=
  if msg.1 = utId then
    match decode msg.2 0 with
    | .error _ => .error ()
    | .ok (root, pos) =>
      match root with
      | .dict d =>
        match dictGet d msgTypeKey with
        | some (.int t) =>
          if t = 1 then
            if pos < msg.2.length then
              if metaPieceIndex d * 16384 % 2 ^ 32 < st.1.length then
                .ok (writeChunk st.1 (metaPieceIndex d * 16384 % 2 ^ 32) (msg.2.drop pos),
                  st.2 + 1)
              else .ok st
            else .ok st
          else if t = 2 then .error ()
          else .ok st
        | _ => .ok st
      | _ => .ok st
  else .ok st

/-- The `while received_pieces < num_pieces` loop; exhausting the
modelled replies with pieces still missing is the 10-second timeout. -/
def processReplies (utId numPieces : Nat) (msgs : List (Nat × List Nat))
    (st : List Nat × Nat) : Except Unit (List Nat × Nat) :=
  if numPieces ≤ st.2 then .ok st
  else
    match msgs with
    | [] => .error ()
    | m :: rest =>
      match processMetaMsg utId st m with
      | .ok st2 => processReplies utId numPieces rest st2
      | .error e => .error e

/-- `attempt_metadata_fetch` after the extension handshake: reject a
zero id or size, collect replies into a `metadata_size` buffer, then
deliver the buffer iff its SHA-1 equals the info fingerprint. -/
def attemptMetadataFetch (infoHash : List Nat) (utMetadataId metadataSize : Nat)
    (replies : List (Nat × List Nat)) : Except Unit (List Nat) :=
  if utMetadataId = 0 ∨ metadataSize = 0 then .error ()
  else
    match processReplies utMetadataId (numPieces32 metadataSize) replies
        (List.replicate metadataSize 0, 0) with
    | .error _ => .error ()
    | .ok st => if sha1Bytes st.1 = infoHash then .ok st.1 else .error ()

/-- The `piece` indices of the well-formed data replies addressed to
us, in arrival order — the pieces the claim regards as "filled". -/
def dataPieceIndices (utId : Nat) (replies : List (Nat × List Nat)) : List Nat :=
  replies.filterMap fun m =>
    if m.1 = utId then
      match decode m.2 0 with
      | .ok (.dict d, _) =>
        match dictGet d msgTypeKey with
        | some (.int t) =>
          if t = 1 then some (metaPieceIndex d)
          else none
        | _ => none
      | _ => none
    else none

theorem decode_encB_prefix (v : Bencode) (hadm : Bencode.admissible v = true)
    (rest : List Nat) :
    decode (Bencode.encB v ++ rest) 0 = .ok (v, (Bencode.encB v).length) := by
  unfold decode
  have hfu : fuelB v ≤ 2 * (Bencode.encB v ++ rest).length + 2 := by
    have h1 := fuelB_le v
    have h2 : (Bencode.encB v).length ≤ (Bencode.encB v ++ rest).length := by simp
    omega
  have h := decodeC_encB v hadm (2 * (Bencode.encB v ++ rest).length + 2) rest hfu
  rw [List.drop_zero, h]
  simp

/-- A well-formed `msg_type = 1` data reply for piece `i`, addressed to
our `ut_metadata` id, is accepted when the wrapped offset is in range:
its raw bytes are copied at offset `i * 16384 mod 2^32` (the `u32`
multiply of the source) and the reply counter grows by one. -/
theorem processMetaMsg_data (utId i : Nat) (hi : i < 2 ^ 32) (data buf : List Nat)
    (received : Nat) (hdata : data ≠ []) (hstart : i * 16384 % 2 ^ 32 < buf.length) :
    processMetaMsg utId (buf, received)
        (utId, Bencode.encB (.dict [(msgTypeKey, .int 1), (pieceKey, .int i)]) ++ data)
      = .ok (writeChunk buf (i * 16384 % 2 ^ 32) data, received + 1) := by
  have hadm : Bencode.admissible (.dict [(msgTypeKey, .int 1), (pieceKey, .int i)]) = true := by
    simp [Bencode.admissible, admissibleE, keysChain, msgTypeKey, pieceKey, lexLt]
    omega
  have hdec := decode_encB_prefix _ hadm data
  unfold processMetaMsg
  rw [if_pos rfl]
  simp only [hdec]
  have hget1 : dictGet [(msgTypeKey, Bencode.int 1), (pieceKey, Bencode.int i)] msgTypeKey
      = some (.int 1) := by
    simp [dictGet, List.find?, msgTypeKey]
  have hget2 : dictGet [(msgTypeKey, Bencode.int 1), (pieceKey, Bencode.int i)] pieceKey
      = some (.int i) := by
    simp [dictGet, List.find?, msgTypeKey, pieceKey]
  simp only [hget1]
  rw [if_pos trivial]
  have hlen : (Bencode.encB (.dict [(msgTypeKey, .int 1), (pieceKey, .int i)])).length
      < (Bencode.encB (.dict [(msgTypeKey, .int 1), (pieceKey, .int i)]) ++ data).length := by
    simp
    exact List.length_pos.mpr hdata
  rw [if_pos hlen]
  have hcast : ((i : Int).emod (2 ^ 32)).toNat = i := by
    have h1 : ((i : Int)).emod (2 ^ 32) = (i : Int) % 4294967296 := by norm_num; rfl
    rw [h1]
    omega
  have hpi : metaPieceIndex [(msgTypeKey, Bencode.int 1), (pieceKey, Bencode.int i)] = i := by
    unfold metaPieceIndex
    rw [hget2]
    exact hcast
  simp only [hpi]
  rw [if_pos hstart]
  rw [List.drop_left]

theorem processReplies_step (utId n : Nat) (m : Nat × List Nat)
    (msgs : List (Nat × List Nat)) (st st2 : List Nat × Nat)
    (hlt : st.2 < n) (hm : processMetaMsg utId st m = .ok st2) :
    processReplies utId n (m :: msgs) st = processReplies utId n msgs st2 := by
  rw [processReplies.eq_def]
  rw [if_neg (by omega)]
  show (match processMetaMsg utId st m with
    | .ok st2 => processReplies utId n msgs st2
    | .error e => .error e) = processReplies utId n msgs st2
  rw [hm]

theorem processReplies_done (utId n : Nat) (msgs : List (Nat × List Nat))
    (st : List Nat × Nat) (h : n ≤ st.2) :
    processReplies utId n msgs st = .ok st := by
  rw [processReplies.eq_def]
  rw [if_pos h]

/-- Length of a `writeChunk` result (a copy never resizes the buffer). -/
theorem writeChunk_length (buf data : List Nat) (start : Nat)
    (hstart : start ≤ buf.length) :
    (writeChunk buf start data).length = buf.length := by
  unfold writeChunk
  simp only [List.length_append, List.length_take, List.length_drop]
  omega

/-- The raw bytes really land at offset `start`: position `start + j`
of the written buffer holds byte `j` of the reply data. -/
theorem writeChunk_getElem (buf data : List Nat) (start j : Nat)
    (hj : j < data.length) (hfit : start + j < buf.length) :
    (writeChunk buf start data)[start + j]? = data[j]? := by
  unfold writeChunk
  have htl : (buf.take start).length = start := by
    rw [List.length_take]
    omega
  rw [List.append_assoc, List.getElem?_append_right (by omega)]
  rw [htl]
  have hj2 : start + j - start = j := by omega
  rw [hj2]
  have hless : j < (data.take (min (start + data.length) buf.length - start)).length := by
    rw [List.length_take]
    omega
  rw [List.getElem?_append, if_pos hless]
  rw [List.getElem?_take, if_pos (by omega)]

theorem processMetaMsg_ok_facts (utId : Nat) (st : List Nat × Nat) (msg : Nat × List Nat)
    (st' : List Nat × Nat) (h : processMetaMsg utId st msg = .ok st') :
    st'.1.length = st.1.length ∧ st'.2 ≤ st.2 + 1 := by
  unfold processMetaMsg at h
  repeat' split at h
  all_goals first
    | (rw [Except.ok.injEq] at h
       subst h
       constructor
       · first
           | rfl
           | exact writeChunk_length _ _ _ (by omega)
       · first
           | exact Nat.le_refl _
           | exact Nat.le_succ _)
    | simp at h

theorem processReplies_ok (utId n : Nat) :
    ∀ (msgs : List (Nat × List Nat)) (st st' : List Nat × Nat), st.2 ≤ n →
      processReplies utId n msgs st = .ok st' →
      st'.2 = n ∧ st'.1.length = st.1.length := by
  intro msgs
  induction msgs with
  | nil =>
    intro st st' hle h
    rw [processReplies.eq_def] at h
    by_cases hg : n ≤ st.2
    · rw [if_pos hg] at h
      cases h
      exact ⟨by omega, rfl⟩
    · rw [if_neg hg] at h
      simp at h
  | cons m rest ih =>
    intro st st' hle h
    rw [processReplies.eq_def] at h
    by_cases hg : n ≤ st.2
    · rw [if_pos hg] at h
      cases h
      exact ⟨by omega, rfl⟩
    · rw [if_neg hg] at h
      revert h
      show (match processMetaMsg utId st m with
        | .ok st2 => processReplies utId n rest st2
        | .error e => .error e) = .ok st' → _
      cases hm : processMetaMsg utId st m with
      | error e => intro h; simp at h
      | ok st2 =>
        intro h
        obtain ⟨hlen, hinc⟩ := processMetaMsg_ok_facts utId st m st2 hm
        obtain ⟨h1, h2⟩ := ih st2 st' (by omega) h
        exact ⟨h1, by omega⟩

/-- Delivery facts of `attempt_metadata_fetch`: a delivered buffer
hashes to the info fingerprint and has exactly `metadata_size` bytes. -/
theorem attemptMetadataFetch_ok (infoHash : List Nat) (utId ms : Nat)
    (replies : List (Nat × List Nat)) (buf : List Nat)
    (h : attemptMetadataFetch infoHash utId ms replies = .ok buf) :
    sha1Bytes buf = infoHash ∧ buf.length = ms := by
  unfold attemptMetadataFetch at h
  by_cases hg : utId = 0 ∨ ms = 0
  · rw [if_pos hg] at h
    simp at h
  · rw [if_neg hg] at h
    revert h
    show (match processReplies utId (numPieces32 ms) replies
        (List.replicate ms 0, 0) with
      | .error _ => Except.error ()
      | .ok st => if sha1Bytes st.1 = infoHash then .ok st.1 else .error ()) = .ok buf → _
    cases hp : processReplies utId (numPieces32 ms) replies
        (List.replicate ms 0, 0) with
    | error e => intro h; simp at h
    | ok st =>
      intro h
      have h2 : (if sha1Bytes st.1 = infoHash then Except.ok st.1 else Except.error ())
          = Except.ok buf := h
      by_cases hsha : sha1Bytes st.1 = infoHash
      · rw [if_pos hsha] at h2
        rw [Except.ok.injEq] at h2
        subst h2
        refine ⟨hsha, ?_⟩
        have := (processReplies_ok utId _ replies _ st (by omega) hp).2
        rw [this]
        simp
      · rw [if_neg hsha] at h2
        simp at h2

/-! ## A duplicate-reply trace -/

/-- The canonical data-reply header `{msg_type: 1, piece: 0}`. -/
def cexHdr : List Nat :=
  Bencode.encB (.dict [(msgTypeKey, .int 1), (pieceKey, .int ((0 : Nat) : Int))])

/-- Two identical one-byte data replies for piece 0 (`ut_metadata` id 2). -/
def cexReplies : List (Nat × List Nat) := [(2, cexHdr ++ [65]), (2, cexHdr ++ [65])]

/-- The buffer after the duplicate trace: byte 65 at offset 0, and the
whole second piece (offset 16384) still zero-initialized. -/
def cexBuf : List Nat := 65 :: List.replicate 16384 0

theorem writeChunk_cex_first : writeChunk (List.replicate 16385 0) (0 * 16384 % 2 ^ 32) [65]
    = 65 :: List.replicate 16384 0 := by
  unfold writeChunk
  simp only [List.length_replicate, List.length_singleton]
  norm_num

theorem writeChunk_cex_second :
    writeChunk (65 :: List.replicate 16384 0) (0 * 16384 % 2 ^ 32) [65]
    = 65 :: List.replicate 16384 0 := by
  unfold writeChunk
  simp only [List.length_cons, List.length_replicate, List.length_singleton]
  norm_num

theorem cex_run : processReplies 2 2 cexReplies (List.replicate 16385 0, 0)
    = .ok (cexBuf, 2) := by
  have hstep1 := processMetaMsg_data 2 0 (by norm_num) [65] (List.replicate 16385 0) 0
    (by simp) (by rw [List.length_replicate]; norm_num)
  rw [writeChunk_cex_first] at hstep1
  have hstep2 := processMetaMsg_data 2 0 (by norm_num) [65] (65 :: List.replicate 16384 0) 1
    (by simp) (by simp only [List.length_cons, List.length_replicate]; norm_num)
  rw [writeChunk_cex_second] at hstep2
  simp only [cexReplies, cexHdr, cexBuf]
  rw [processReplies_step 2 2 _ _ _ _ (by decide) hstep1]
  rw [processReplies_step 2 2 _ _ _ _ (by decide) hstep2]
  rw [processReplies_done 2 2 _ _ (by decide)]

theorem cex_fetch : attemptMetadataFetch (sha1Bytes cexBuf) 2 16385 cexReplies
    = .ok cexBuf := by
  unfold attemptMetadataFetch
  rw [if_neg (by norm_num)]
  have hnum : numPieces32 16385 = 2 := by norm_num [numPieces32]
  simp only [hnum, cex_run]
  simp

/-- C4 counterexample: with `metadata_size = 16385` (two pieces) and a
peer that answers the piece-0 request twice and never sends piece 1,
the fetcher still delivers — `received_pieces` counts replies, not
distinct pieces — even though piece 1 was never filled by any data
reply.  The info fingerprint here is the SHA-1 of the delivered
buffer, i.e. of the metadata actually published under this fingerprint.
So "delivers the buffer only after all pieces are filled" is false as
stated. -/
theorem C4_metadata_counterexample :
    attemptMetadataFetch (sha1Bytes cexBuf) 2 16385 cexReplies = .ok cexBuf ∧
      (metadataRequests 16385).length = 2 ∧
      1 ∉ dataPieceIndices 2 cexReplies :=
  ⟨cex_fetch, by decide, by decide⟩

/-- C4 (amended): for `metadata_size` in `1 ..= 2^32 - 16384` the
fetcher requests exactly `ceil(metadata_size / 16384)` pieces, while
for a larger `u32` `metadata_size` the 32-bit ceiling computation
overflows and zero pieces are requested; an accepted data reply's raw
bytes are placed at offset `(piece * 16384) mod 2^32` — the `u32`
multiply wraps for `piece ≥ 262144` — in the `metadata_size` buffer
(byte `j` of the reply lands at position `start + j`), and a
well-formed data reply whose wrapped offset is in range is accepted,
counted once, and written there; the buffer is delivered only after
`num_pieces` data replies have been accepted — duplicates counted, so
a piece may remain unfilled — and only if the SHA-1 of the full buffer
equals the info fingerprint; a hash mismatch means no delivery and the
fetch from that peer fails. -/
theorem C4_metadata_fetch :
    (∀ ms : Nat, 1 ≤ ms → ms + 16 * 1024 ≤ 2 ^ 32 →
      ms ≤ (metadataRequests ms).length * 16384 ∧
        ((metadataRequests ms).length - 1) * 16384 < ms) ∧
    (∀ ms : Nat, 2 ^ 32 - 16 * 1024 < ms → ms < 2 ^ 32 →
      (metadataRequests ms).length = 0) ∧
    (∀ (buf data : List Nat) (start j : Nat), j < data.length → start + j < buf.length →
      (writeChunk buf start data)[start + j]? = data[j]?) ∧
    (∀ utId i : Nat, i < 2 ^ 32 → ∀ (data buf : List Nat) (received : Nat),
      data ≠ [] → i * 16384 % 2 ^ 32 < buf.length →
      processMetaMsg utId (buf, received)
          (utId, Bencode.encB (.dict [(msgTypeKey, .int 1), (pieceKey, .int i)]) ++ data)
        = .ok (writeChunk buf (i * 16384 % 2 ^ 32) data, received + 1)) ∧
    (∀ (utId n : Nat) (msgs : List (Nat × List Nat)) (st st' : List Nat × Nat),
      st.2 ≤ n → processReplies utId n msgs st = .ok st' → st'.2 = n) ∧
    (∀ (infoHash : List Nat) (utId ms : Nat) (replies : List (Nat × List Nat))
        (buf : List Nat),
      attemptMetadataFetch infoHash utId ms replies = .ok buf →
        sha1Bytes buf = infoHash ∧ buf.length = ms) := by
  refine ⟨?_, ?_, ?_, ?_, ?_, ?_⟩
  · intro ms hms hle
    simp only [metadataRequests, numPieces32, List.length_range]
    omega
  · intro ms hlo hhi
    simp only [metadataRequests, numPieces32, List.length_range]
    omega
  · intro buf data start j hj hfit
    exact writeChunk_getElem buf data start j hj hfit
  · intro utId i hi data buf received hdata hstart
    exact processMetaMsg_data utId i hi data buf received hdata hstart
  · intro utId n msgs st st' hle h
    exact (processReplies_ok utId n msgs st st' hle h).1
  · intro infoHash utId ms replies buf h
    exact attemptMetadataFetch_ok infoHash utId ms replies buf h

theorem wit_run : processReplies 1 1 [(1, cexHdr ++ [9])] (List.replicate 1 0, 0)
    = .ok ([9], 1) := by
  have hstep := processMetaMsg_data 1 0 (by norm_num) [9] (List.replicate 1 0) 0
    (by simp) (by decide)
  have hw : writeChunk (List.replicate 1 0) (0 * 16384 % 2 ^ 32) [9] = [9] := by decide
  rw [hw] at hstep
  simp only [cexHdr]
  rw [processReplies_step 1 1 _ _ _ _ (by decide) hstep]
  rw [processReplies_done 1 1 _ _ (by decide)]

theorem wit_fetch : attemptMetadataFetch (sha1Bytes [9]) 1 1 [(1, cexHdr ++ [9])]
    = .ok [9] := by
  unfold attemptMetadataFetch
  rw [if_neg (by norm_num)]
  have hnum : numPieces32 1 = 1 := by norm_num [numPieces32]
  simp only [hnum, wit_run]
  simp

/-- Witness for C4 at small concrete instances of every conjunct. -/
theorem C4_metadata_fetch_witness :
    ((1:Nat) ≤ 5 ∧ 5 + 16 * 1024 ≤ 2 ^ 32 ∧
      (5 ≤ (metadataRequests 5).length * 16384 ∧
        ((metadataRequests 5).length - 1) * 16384 < 5)) ∧
    ((2:Nat) ^ 32 - 16 * 1024 < 2 ^ 32 - 1 ∧ (2:Nat) ^ 32 - 1 < 2 ^ 32 ∧
      (metadataRequests (2 ^ 32 - 1)).length = 0) ∧
    ((0:Nat) < [(7:Nat)].length ∧ 1 + 0 < [(0:Nat), 0, 0].length ∧
      (writeChunk [0, 0, 0] 1 [7])[1 + 0]? = [(7:Nat)][0]?) ∧
    ((0:Nat) < 2 ^ 32 ∧ ([9] : List Nat) ≠ [] ∧
      0 * 16384 % 2 ^ 32 < (List.replicate 1 (0:Nat)).length ∧
      processMetaMsg 1 (List.replicate 1 0, 0) (1, cexHdr ++ [9])
        = .ok (writeChunk (List.replicate 1 0) (0 * 16384 % 2 ^ 32) [9], 0 + 1)) ∧
    (((1:Nat), 0).2 ≤ 1 ∧
      processReplies 1 1 [(1, cexHdr ++ [9])] (List.replicate 1 0, 0) = .ok ([9], 1) ∧
      (([9], 1) : List Nat × Nat).2 = 1) ∧
    (attemptMetadataFetch (sha1Bytes [9]) 1 1 [(1, cexHdr ++ [9])] = .ok [9] ∧
      (sha1Bytes [9] = sha1Bytes [9] ∧ ([9] : List Nat).length = 1)) := by
  refine ⟨⟨by norm_num, by norm_num, C4_metadata_fetch.1 5 (by norm_num) (by norm_num)⟩,
    ⟨by norm_num, by norm_num,
      C4_metadata_fetch.2.1 (2 ^ 32 - 1) (by norm_num) (by norm_num)⟩,
    ⟨by decide, by decide, C4_metadata_fetch.2.2.1 [0, 0, 0] [7] 1 0 (by decide) (by decide)⟩,
    ⟨by decide, by decide, by decide, ?_⟩,
    ⟨by decide, wit_run, ?_⟩,
    ⟨wit_fetch, C4_metadata_fetch.2.2.2.2.2 (sha1Bytes [9]) 1 1 [(1, cexHdr ++ [9])] [9]
      wit_fetch⟩⟩
  · exact C4_metadata_fetch.2.2.2.1 1 0 (by norm_num) [9] (List.replicate 1 0) 0
      (by simp) (by decide)
  · exact C4_metadata_fetch.2.2.2.2.1 1 1 [(1, cexHdr ++ [9])] (List.replicate 1 0, 0)
      ([9], 1) (by decide) wit_run
